import Mathlib

/-!
Verification development for the documentation graph builder of the
`codeatlas` repository.

The TypeScript source is shallowly embedded: each relevant source function
becomes a Lean definition operating on explicit data (association lists for
JS objects and `Map`s, `Option` for `undefined`/`null`, an explicit write
trace for file-system effects, and an explicit record of `console.warn`
calls where a claim mentions warnings).  File-system *inputs* (the results
of the directory walks `findMarkdownFiles` and `scanProject`, and the
contents of files) are supplied as data in a `ScanInput` record, since the
walks themselves are plain I/O with no algorithmic content.  The external
YAML library (`js-yaml`) is abstracted as a function `String → YamlRes`
passed to the parser; concrete scenarios instantiate it with a finite table
recording the library's documented behaviour on the exact header texts
used.
-/

namespace CodeAtlas

/-! ## JS string primitives, modelled on `List Char` -/

/-- Characters of a string. -/
def cl (s : String) : List Char := s.data

/-- String from characters. -/
def st (l : List Char) : String := ⟨l⟩

/-- Boolean list-prefix test (used for `String.prototype.startsWith` and
substring search). -/
def hasPre : List Char → List Char → Bool
  | [], _ => true
  | _ :: _, [] => false
  | p :: ps, c :: rest => p == c && hasPre ps rest

/-- JS `s.startsWith(pat)`. -/
def jsStarts (s pat : String) : Bool := hasPre (cl pat) (cl s)

/-- First index (from the head) at which `pat` occurs in `l`, if any. -/
def findIdxOf (pat : List Char) : List Char → Option Nat
  | [] => if hasPre pat [] then some 0 else none
  | c :: rest =>
    if hasPre pat (c :: rest) then some 0
    else (findIdxOf pat rest).map (· + 1)

/-- JS `s.indexOf(pat, start)`, as `Option Nat` instead of `-1`. -/
def jsIndexOfFrom (s pat : String) (start : Nat) : Option Nat :=
  (findIdxOf (cl pat) ((cl s).drop start)).map (· + start)

/-- JS `s.includes(sub)`. -/
def jsIncludes (s sub : String) : Bool := (findIdxOf (cl sub) (cl s)).isSome

/-- JS `s.slice(a, b)` for `0 ≤ a ≤ b`. -/
def jsSlice (s : String) (a b : Nat) : String := st (((cl s).drop a).take (b - a))

/-- JS `s.slice(a)`. -/
def jsSliceFrom (s : String) (a : Nat) : String := st ((cl s).drop a)

/-- JS whitespace test (the characters relevant to these documents). -/
def isWs (c : Char) : Bool := c == ' ' || c == '\t' || c == '\n' || c == '\r'

/-- JS `s.trimStart()`. -/
def jsTrimStart (s : String) : String := st ((cl s).dropWhile isWs)

/-- Replace the first occurrence of the literal `pat` by `rep`
(JS `s.replace(pat, rep)` with a string pattern). -/
def replFirstL (pat rep : List Char) : List Char → List Char
  | [] => []
  | c :: rest =>
    if hasPre pat (c :: rest) then rep ++ (c :: rest).drop pat.length
    else c :: replFirstL pat rep rest

/-- JS `s.replace(pat, rep)` with a string pattern: first occurrence only. -/
def jsReplaceFirst (s pat rep : String) : String := st (replFirstL (cl pat) (cl rep) (cl s))

/-- JS `s.toLowerCase()` (ASCII, as all generated ids are ASCII). -/
def jsLower (s : String) : String := st ((cl s).map Char.toLower)

/-- Split on a character predicate, keeping empty groups, like
`s.split(/[-_]/)` does. -/
def splitP (p : Char → Bool) : List Char → List (List Char)
  | [] => [[]]
  | c :: rest =>
    match splitP p rest with
    | [] => []
    | g :: gs => if p c then [] :: g :: gs else (c :: g) :: gs

/-- JS `array.join(sep)`. -/
def joinSep (sep : String) : List String → String
  | [] => ""
  | [x] => x
  | x :: xs => x ++ sep ++ joinSep sep xs

/-- JS `word.charAt(0).toUpperCase() + word.slice(1)`. -/
def capWord (w : List Char) : String :=
  match w with
  | [] => ""
  | c :: rest => st (c.toUpper :: rest)

/-- JS string truthiness of an optional string (`undefined` and `""` are
falsy). -/
def truthy : Option String → Bool
  | none => false
  | some s => s ≠ ""

/-- Test that `l` ends with `suf`. -/
def endsWithL (l suf : List Char) : Bool := hasPre suf.reverse l.reverse

/-- Strip a literal suffix if present (JS `s.replace(/suf$/, '')` for a
fixed literal `suf`). -/
def stripSuffixL (l suf : List Char) : List Char :=
  if endsWithL l suf then l.take (l.length - suf.length) else l

/-! ## Frontmatter parser (`src/utils/frontmatterParser.ts`) -/

/-- Logical fields of a metadata header.  `parent`'s outer `Option` is
presence of the key (`undefined` when absent); the inner one is an explicit
`null`. -/
structure FrontMeta where
  id : Option String := none
  title : Option String := none
  parent : Option (Option String) := none
  order : Option Int := none
deriving DecidableEq, Repr

/-- Result of the external YAML library on a block's text: it can throw,
return a non-object value (scalars, `null`), or return a key-value
mapping. -/
inductive YamlRes
  | err
  | nonMapping
  | mapping (m : FrontMeta)
deriving DecidableEq, Repr

/-- Result of `parse`, plus whether `console.warn` was invoked on the way
(the source warns exactly when the YAML library throws). -/
structure ParsedFm where
  meta : FrontMeta
  body : String
  warned : Bool
deriving DecidableEq, Repr

/-- Embedding of `parse` from `src/utils/frontmatterParser.ts`, with the
YAML library abstracted as `L`. -/
def fmParse (L : String → YamlRes) (content : String) : ParsedFm :=
  if ¬ jsStarts content "---\n" then ⟨{}, content, false⟩
  else
    match jsIndexOfFrom content "\n---\n" 4 with
    | none => ⟨{}, content, false⟩
    | some endIndex =>
      let fmText := jsSlice content 4 endIndex
      let body := jsTrimStart (jsSliceFrom content (endIndex + 5))
      match L fmText with
      | .err => ⟨{}, content, true⟩
      | .nonMapping => ⟨{}, content, false⟩
      | .mapping m => ⟨m, body, false⟩

/-! ## Path helpers (Node `path` on the clean relative paths this pipeline
produces: segments are folded, with `.` dropped and `..` popping one). -/

/-- Fold path segments, resolving `.` and `..`. -/
def normSegs (segs : List String) : List String :=
  segs.foldl
    (fun acc seg =>
      if seg = "" ∨ seg = "." then acc
      else if seg = ".." then acc.dropLast
      else acc ++ [seg])
    []

/-- Node `path.normalize` for the relative paths used here. -/
def normalizeP (p : String) : String :=
  joinSep "/" (normSegs ((splitP (· == '/') (cl p)).map st))

/-- Node `path.join(a, b)`. -/
def joinP (a b : String) : String := normalizeP (a ++ "/" ++ b)

/-- Node `path.dirname`. -/
def dirnameS (p : String) : String :=
  let segs := splitP (· == '/') (cl p)
  match segs.dropLast with
  | [] => "."
  | init => joinSep "/" (init.map st)

/-- Node `path.basename`. -/
def basenameS (p : String) : String :=
  match (splitP (· == '/') (cl p)).getLast? with
  | some seg => st seg
  | none => ""

/-- Node `path.basename(p, suffix)`. -/
def basenameSuf (p suffix : String) : String :=
  st (stripSuffixL (cl (basenameS p)) (cl suffix))

/-! ## Markdown link extraction (`extractMarkdownReferences`)

The regex `\[([^\]]+)\]\(([^)]+\.md)\)` with the `g` flag scans for
non-overlapping matches left to right.  Because both character classes are
complements of the closing bracket, the match at a given `[` is
deterministic: a maximal nonempty run of non-`]` characters followed by
`](`, then a maximal nonempty run of non-`)` characters that must end in
`.md`, followed by `)`.  On failure the scan resumes one character after
the `[`; on success it resumes after the `)`. -/

/-- Fuel-driven scanner; every recursive call strictly shrinks the list, so
`fuel = length + 1` never runs out. -/
def linkScanF : Nat → List Char → List String
  | 0, _ => []
  | fuel + 1, l =>
    match l with
    | [] => []
    | '[' :: rest =>
      let t := rest.takeWhile (· ≠ ']')
      (match rest.drop t.length with
       | ']' :: '(' :: r2 =>
         if t.isEmpty then linkScanF fuel rest
         else
           let u := r2.takeWhile (· ≠ ')')
           (match r2.drop u.length with
            | ')' :: r4 =>
              if endsWithL u (cl ".md") ∧ 4 ≤ u.length then st u :: linkScanF fuel r4
              else linkScanF fuel rest
            | _ => linkScanF fuel rest)
       | _ => linkScanF fuel rest)
    | _ :: rest => linkScanF fuel rest

/-- All capture-group-2 link targets of the regex, in order. -/
def linkScan (l : List Char) : List String := linkScanF (l.length + 1) l

/-! ## Code structure analyzer (`src/utils/codeStructureAnalyzer.ts`) -/

/-- ASCII lower-case letter or digit. -/
def isLowAlnum (c : Char) : Bool := ('a' ≤ c && c ≤ 'z') || ('0' ≤ c && c ≤ '9')

/-- Letter (either case) or digit, as matched by `/[a-z0-9]/i`. -/
def isAlnumCI (c : Char) : Bool :=
  ('a' ≤ c && c ≤ 'z') || ('A' ≤ c && c ≤ 'Z') || ('0' ≤ c && c ≤ '9')

/-- JS `s.replace(/([a-z])([A-Z])/g, '$1-$2')`: a hyphen between each
lower-upper pair, resuming after the pair. -/
def camelSplit : List Char → List Char
  | c1 :: c2 :: rest =>
    if c1.isLower && c2.isUpper then c1 :: '-' :: c2 :: camelSplit rest
    else c1 :: camelSplit (c2 :: rest)
  | l => l

/-- JS `s.replace(/[^a-z0-9]+/g, '-')` on a lower-cased string: each run of
characters outside `[a-z0-9]` becomes a single hyphen.  The flag records
whether the previous character belonged to such a run. -/
def collapseBadGo : Bool → List Char → List Char
  | _, [] => []
  | prevBad, c :: rest =>
    if isLowAlnum c then c :: collapseBadGo false rest
    else if prevBad then collapseBadGo true rest
    else '-' :: collapseBadGo true rest

/-- JS replacement of every maximal hyphen run by a single hyphen (the
`-+` regex with the g flag); the flag records whether the previous
character was a hyphen. -/
def collapseHyGo : Bool → List Char → List Char
  | _, [] => []
  | prevHy, c :: rest =>
    if c = '-' then
      if prevHy then collapseHyGo true rest else '-' :: collapseHyGo true rest
    else c :: collapseHyGo false rest

/-- JS `s.replace(/^-|-$/g, '')`: one leading and one trailing hyphen. -/
def stripEdgeHyphens (l : List Char) : List Char :=
  let l1 := match l with
    | '-' :: r => r
    | other => other
  match l1.reverse with
  | '-' :: r => r.reverse
  | _ => l1

/-- JS `s.replace(/\.[^.]+$/, '')`: strip a final dot-extension. -/
def stripDotExt (l : List Char) : List Char :=
  let rev := l.reverse
  let extPart := rev.takeWhile (· ≠ '.')
  match rev.drop extPart.length with
  | '.' :: pre => if extPart.isEmpty then l else pre.reverse
  | _ => l

/-- Embedding of `generateIdFromName`. -/
def generateIdFromName (name : String) : String :=
  st (stripEdgeHyphens
    (collapseBadGo false ((camelSplit (cl name)).map Char.toLower)))

/-- Strip one anchored literal segment (`s.replace(/^seg/, '')`). -/
def stripLeadLit (l seg : List Char) : List Char :=
  if hasPre seg l then l.drop seg.length else l

/-- Embedding of `generateIdFromPath`. -/
def generateIdFromPath (path : String) : String :=
  let s1 := stripLeadLit (stripLeadLit (stripLeadLit (cl path) (cl "src/")) (cl "lib/")) (cl "app/")
  let s2 := stripDotExt s1
  let s3 := s2.map (fun c => if c = '/' ∨ c = '\\' then '-' else c)
  let s4 := s3.map (fun c => if isAlnumCI c ∨ c = '-' then c else '-')
  let s5 := s4.map Char.toLower
  st (stripEdgeHyphens (collapseHyGo false s5))

/-- Embedding of the `directoryToModule` lookup table (JS
`directoryToModule[directory] || directory`). -/
def directoryToModule (d : String) : String :=
  if d = "commands" ∨ d = "command" then "commands"
  else if d = "utils" ∨ d = "util" then "utils"
  else if d = "llm" then "llm"
  else if d = "components" ∨ d = "component" then "components"
  else if d = "services" ∨ d = "service" then "services"
  else if d = "models" ∨ d = "model" then "models"
  else if d = "types" ∨ d = "type" then "types"
  else if d = "interfaces" ∨ d = "interface" then "interfaces"
  else if d = "handlers" ∨ d = "handler" then "handlers"
  else if d = "routes" ∨ d = "route" then "routes"
  else if d = "middleware" then "middleware"
  else if d = "config" then "config"
  else if d = "constants" then "constants"
  else d

/-- Embedding of `getSubModulePrefix` (`prefixMap[id] || id.slice(0, -1)`). -/
def getSubModulePre (parentModuleId : String) : String :=
  if parentModuleId = "commands" then "command"
  else if parentModuleId = "utils" then "util"
  else if parentModuleId = "components" then "component"
  else if parentModuleId = "services" then "service"
  else if parentModuleId = "models" then "model"
  else if parentModuleId = "types" then "type"
  else if parentModuleId = "interfaces" then "interface"
  else if parentModuleId = "handlers" then "handler"
  else if parentModuleId = "routes" then "route"
  else st (cl parentModuleId).dropLast

/-- Result of `mapSourceToModule`. -/
structure ModuleMapping where
  moduleId : String
  parentId : Option String := none
deriving DecidableEq, Repr

/-- Embedding of `mapSourceToModule`. -/
def mapSourceToModule (filePath : String) : ModuleMapping :=
  let normalized := (cl filePath).map (fun c => if c = '\\' then '/' else c)
  let parts := ((splitP (· == '/') normalized).map st).filter
    (fun p => p ≠ "" ∧ p ≠ "." ∧ p ≠ "..")
  let startIdx : Nat :=
    match parts.head? with
    | some h => if h = "src" ∨ h = "lib" ∨ h = "app" then 1 else 0
    | none => 0
  if parts.length ≤ startIdx then { moduleId := generateIdFromPath filePath }
  else
    let directory := parts.getD startIdx ""
    let fileName := st (stripDotExt (cl (parts.getLastD "")))
    let moduleId := directoryToModule directory
    let pre := getSubModulePre moduleId
    let subModuleId := pre ++ "-" ++ generateIdFromName fileName
    if parts.length = startIdx + 2 then
      { moduleId := subModuleId, parentId := some moduleId }
    else
      { moduleId := subModuleId, parentId := some moduleId }

/-- Embedding of `SourceFileInfo`. -/
structure SourceFileInfo where
  path : String
  relativePath : String
  directory : String
  fileName : String
  extension : String
  suggestedModuleId : String
  suggestedParentId : Option String := none
deriving DecidableEq, Repr

def SOURCE_EXTENSIONS : List String :=
  [".ts", ".tsx", ".js", ".jsx", ".py", ".go", ".rs", ".java", ".kt"]

def TEST_PATTERNS : List String := ["test", "spec", "__tests__", "__mocks__"]

def BUILD_PATTERNS : List String :=
  ["dist", "build", ".next", ".nuxt", "coverage", "node_modules"]

/-- Embedding of `isTestFile`. -/
def isTestFile (path : String) : Bool :=
  TEST_PATTERNS.any (fun pat => jsIncludes (jsLower path) pat)

/-- Embedding of `isExcludedPath`. -/
def isExcludedPath (path : String) : Bool :=
  BUILD_PATTERNS.any (fun pat => jsIncludes (jsLower path) pat)

/-- Embedding of `getExtension` (`lastIndexOf('.') > 0`). -/
def getExtension (fileName : String) : String :=
  let l := cl fileName
  let extPart := l.reverse.takeWhile (· ≠ '.')
  match l.reverse.drop extPart.length with
  | '.' :: pre => if pre.isEmpty then "" else st ('.' :: extPart.reverse)
  | _ => ""

/-- Embedding of `analyzeCodeStructure`: the directory walk `scanProject`
is plain I/O, so its resulting relative-path list `allFiles` is an input;
the filtering and mapping mirror the source loop.  The `directoryMap` and
`moduleMap` the source also builds are not consumed by any downstream code
and are omitted. -/
def analyzeCodeStructure (root : String) (allFiles : List String) : List SourceFileInfo :=
  allFiles.filterMap (fun relPath =>
    if isTestFile relPath then none
    else if isExcludedPath relPath then none
    else
      let dir := dirnameS relPath
      let fileName := basenameS relPath
      let ext := getExtension fileName
      if ¬ SOURCE_EXTENSIONS.contains ext then none
      else
        let mapping := mapSourceToModule relPath
        some { path := joinP root relPath
               relativePath := relPath
               directory := dir
               fileName := jsReplaceFirst fileName ext ""
               extension := ext
               suggestedModuleId := mapping.moduleId
               suggestedParentId := mapping.parentId })


/-! ## Tree data model (`TreeEntry`, `TreeData` of the scan command)

JS objects are modelled as association lists whose insert replaces the
value in place when the key exists and appends otherwise, matching JS
property-assignment and insertion-order iteration.  Optional JSON fields
are `Option`s (`none` = the key is absent from the serialized object). -/

/-- Embedding of the `TreeEntry` interface. -/
structure TreeEntry where
  id : String
  title : String
  parent : Option String
  order : Int
  path : String
  references : Option (List String) := none
  isReferenced : Option Bool := none
  sourceFile : Option String := none
  suggestedParent : Option String := none
  sourceFiles : Option (List String) := none
  isSourceFile : Option Bool := none
deriving DecidableEq, Repr

/-- A JS object keyed by id, in insertion order. -/
abbrev TreeData := List (String × TreeEntry)

/-- Association lookup (`obj[key]`). -/
def alookup {α : Type} : List (String × α) → String → Option α
  | [], _ => none
  | kv :: rest, key => if kv.1 = key then some kv.2 else alookup rest key

/-- JS `obj[key] = value`: replace in place, or append. -/
def aset {α : Type} : List (String × α) → String → α → List (String × α)
  | [], k, v => [(k, v)]
  | (k', v') :: rest, k, v =>
    if k' = k then (k', v) :: rest else (k', v') :: aset rest k v

/-- Update the value at a key in place (JS mutation of a found object). -/
def amodify {α : Type} (m : List (String × α)) (k : String) (f : α → α) :
    List (String × α) :=
  m.map (fun kv => if kv.1 = k then (kv.1, f kv.2) else kv)

/-- Append `v` to the list at key `k` of a multimap, creating the key at
the end on first use (the `childrenMap` / `moduleToFiles` idiom:
`if (!m.has(k)) m.set(k, []); m.get(k).push(v)`). -/
def madd {β : Type} : List (String × List β) → String → β → List (String × List β)
  | [], k, v => [(k, [v])]
  | (k', l) :: rest, k, v =>
    if k' = k then (k', l ++ [v]) :: rest else (k', l) :: madd rest k v

/-- Embedding of `generateEntryForReferencedFile`. -/
def generateEntryForReferencedFile (filePath root : String) : TreeEntry :=
  let relPath := jsReplaceFirst (jsReplaceFirst filePath (root ++ "/") "") (root ++ "\\") ""
  let fileName := basenameSuf filePath ".md"
  let s1 := jsReplaceFirst relPath ".ai-docs/docs/" ""
  let s2 := stripSuffixL (cl s1) (cl ".md")
  let s3 := s2.map (fun c => if c = '/' ∨ c = '\\' then '-' else c)
  let s4 := s3.map (fun c => if isAlnumCI c ∨ c = '-' then c else '-')
  let id := st (s4.map Char.toLower)
  let title := joinSep " "
    ((splitP (fun c => c == '-' || c == '_') (cl fileName)).map capWord)
  { id := id
    title := title
    parent := none
    order := 999
    path := relPath
    isReferenced := some true }

/-- Embedding of `generateEntryForSourceFile` (the `root` parameter of the
source is unused there). -/
def generateEntryForSourceFile (sf : SourceFileInfo) : TreeEntry :=
  let title := joinSep " "
    ((splitP (fun c => c == '-' || c == '_') (cl sf.fileName)).map capWord)
  { id := sf.suggestedModuleId
    title := title
    parent := if truthy sf.suggestedParentId then sf.suggestedParentId else none
    order := 999
    path := ""
    sourceFile := some sf.relativePath
    suggestedParent := sf.suggestedParentId
    isSourceFile := some true }

/-! ## Hierarchy validator (`validateHierarchy`)

The recursive `checkCircular` walks up the parent chain keeping `visiting`
(the grey set, equal to the current chain) and `visited` (the black set).
The recursion is driven by fuel; every recursive call adds a fresh tree
key to `visiting`, so `tree.length + 1` fuel is always sufficient (proved
where needed). -/

/-- Mutable state of `validateHierarchy`. -/
structure VState where
  circular : List String
  orphaned : List String
  visited : List String
  visiting : List String
deriving DecidableEq, Repr

/-- First index of `x` in `l` (JS `array.indexOf`), `l.length` if absent. -/
def idxOfS : List String → String → Nat
  | [], _ => 0
  | y :: rest, x => if y = x then 0 else idxOfS rest x + 1

/-- Embedding of the inner `checkCircular`. -/
def checkCircular (tree : TreeData) : Nat → String → List String → VState → VState
  | 0, _, _, s => s
  | fuel + 1, id, path, s =>
    if id ∈ s.visiting then
      if id ∈ path then
        { s with circular :=
            s.circular ++ [joinSep " -> " (path.drop (idxOfS path id) ++ [id])] }
      else s
    else if id ∈ s.visited then s
    else
      let s1 : VState := { s with visiting := s.visiting ++ [id] }
      match alookup tree id with
      | none =>
        { s1 with
            orphaned := s1.orphaned ++ [id]
            visiting := s1.visiting.erase id
            visited := s1.visited ++ [id] }
      | some entry =>
        let s2 :=
          match entry.parent with
          | some p => checkCircular tree fuel p (path ++ [id]) s1
          | none => s1
        { s2 with
            visiting := s2.visiting.erase id
            visited := s2.visited ++ [id] }

/-- Embedding of `validateHierarchy`: the top loop over keys, then the
orphan sweep over entries. -/
def validateHierarchy (tree : TreeData) : List String × List String :=
  let s := (tree.map Prod.fst).foldl
    (fun s id => if id ∈ s.visited then s else checkCircular tree (tree.length + 1) id [] s)
    ⟨[], [], [], []⟩
  let orphaned := s.orphaned ++ tree.filterMap (fun kv =>
    match kv.2.parent with
    | some p => if alookup tree p = none then some kv.1 else none
    | none => none)
  (s.circular, orphaned)

/-! ## Hierarchy suggestions (`suggestModuleHierarchy`) -/

inductive Confidence
  | high
  | medium
  | low
deriving DecidableEq, Repr

/-- Embedding of `HierarchySuggestion`. -/
structure HierarchySuggestion where
  moduleId : String
  suggestedParent : String
  reason : String
  confidence : Confidence
deriving DecidableEq, Repr

/-- The per-file search in the suggestion loop: the first existing module
whose (docs-stripped) path occurs in the file's relative path. -/
def findExistingForFile (existingModules : TreeData) (file : SourceFileInfo) :
    Option TreeEntry :=
  (existingModules.find? (fun kv =>
    kv.2.path != "" &&
      jsIncludes file.relativePath (jsReplaceFirst kv.2.path ".ai-docs/docs/" ""))).map
    Prod.snd

/-- One iteration of the sub-module suggestion loop: a high-confidence
sub-module suggestion when no existing module matches, a medium-confidence
relocation when the match sits at root level, nothing otherwise. -/
def fileSuggestion (existingModules : TreeData) (parentId : String)
    (file : SourceFileInfo) : Option HierarchySuggestion :=
  match findExistingForFile existingModules file with
  | none =>
    some ⟨file.suggestedModuleId, parentId,
      "Source file \"" ++ file.relativePath ++ "\" suggests sub-module under \"" ++
        parentId ++ "\"", .high⟩
  | some m =>
    if m.parent = some "root" ∨ m.parent = none then
      some ⟨m.id, parentId,
        "Code structure suggests \"" ++ m.id ++ "\" should be under \"" ++
          parentId ++ "\"", .medium⟩
    else none

/-- The `moduleToFiles` grouping at the head of `suggestModuleHierarchy`:
files grouped by (truthy) suggested parent id, in first-seen order. -/
def groupByParent (sourceFiles : List SourceFileInfo) :
    List (String × List SourceFileInfo) :=
  sourceFiles.foldl
    (fun m f =>
      if truthy f.suggestedParentId then madd m (f.suggestedParentId.getD "") f
      else m)
    []

/-- The create-parent suggestion pushed when a grouped parent module does
not exist yet. -/
def createParentSuggestion (pid : String) (files : List SourceFileInfo) :
    HierarchySuggestion :=
  ⟨pid, "root",
    "Directory structure suggests creating a \"" ++ pid ++ "\" module with " ++
      toString files.length ++ " sub-modules", .high⟩

/-- Embedding of `suggestModuleHierarchy`. -/
def suggestModuleHierarchy (sourceFiles : List SourceFileInfo)
    (existingModules : TreeData) : List HierarchySuggestion :=
  (groupByParent sourceFiles).foldl
    (fun sugg kv =>
      let sugg :=
        if (alookup existingModules kv.1).isSome then sugg
        else sugg ++ [createParentSuggestion kv.1 kv.2]
      sugg ++ kv.2.filterMap (fileSuggestion existingModules kv.1))
    []

/-! ## The scan pipeline (`handleScan`)

File-system reality is an explicit `ScanInput`: the booleans model the
`existsSync` checks on the two managed directories, the two path lists
model the `findMarkdownFiles` walks, `files` models `readFile`/`existsSync`
on individual files, and `sourceScan` models the `scanProject` walk.  The
`Env` record carries per-run ambient state (a wall clock) that the source
never reads; writes are accumulated as an explicit trace.  Console logging
and the final asset copying (out of the documented scope) are not modelled;
`console.warn`-style messages that feed the warnings list are. -/

structure ScanOptions where
  analyzeCode : Bool := true
  suggestOnly : Bool := false
  autoLink : Bool := true
deriving DecidableEq, Repr

structure ScanInput where
  root : String
  docsDirExists : Bool
  filesDirExists : Bool
  docsMdFiles : List String
  filesMdFiles : List String
  files : List (String × String)
  sourceScan : List String
deriving DecidableEq, Repr

/-- Ambient per-run state available to, but never read by, the builder. -/
structure Env where
  clockNow : Nat
deriving DecidableEq, Repr

/-- Model of `existsSync` on a file. -/
def fExists (inp : ScanInput) (p : String) : Bool := (alookup inp.files p).isSome

/-- Model of `readFile`. -/
def readF (inp : ScanInput) (p : String) : Option String := alookup inp.files p

/-- Embedding of `extractMarkdownReferences`. -/
def extractMarkdownReferences (inp : ScanInput) (content currentDir root : String) :
    List String :=
  (linkScan (cl content)).foldl
    (fun references linkPath =>
      if jsStarts linkPath "http://" || jsStarts linkPath "https://" then references
      else
        let resolvedPath :=
          if jsStarts linkPath "/" then joinP root (jsSliceFrom linkPath 1)
          else joinP currentDir linkPath
        let resolvedPath := normalizeP resolvedPath
        let docsDir := normalizeP (joinP (joinP root ".ai-docs") "docs")
        let filesDir := normalizeP (joinP (joinP root ".ai-docs") "files")
        if (jsStarts resolvedPath docsDir || jsStarts resolvedPath filesDir) &&
            fExists inp resolvedPath then
          let relPath := jsReplaceFirst (jsReplaceFirst resolvedPath (root ++ "/") "")
            (root ++ "\\") ""
          if relPath ∈ references then references else references ++ [relPath]
        else references)
    []

/-- Embedding of the inner `traverse` of `findAllReferencedFiles`; the
state is `(visited, allReferenced)`.  Fuel-driven: each nested call adds a
fresh path to `visited`, whose possible members are bounded by the input,
so the fuel used below never runs out. -/
def traverseRefs (L : String → YamlRes) (inp : ScanInput) :
    Nat → String → List String × List String → List String × List String
  | 0, _, va => va
  | fuel + 1, filePath, va =>
    if filePath ∈ va.1 then va
    else
      let va : List String × List String := (va.1 ++ [filePath], va.2)
      let fullPath := if jsStarts filePath inp.root then filePath else joinP inp.root filePath
      if ¬ fExists inp fullPath then va
      else
        match readF inp fullPath with
        | none => va
        | some content =>
          let body := (fmParse L content).body
          let currentDir := dirnameS fullPath
          let references := extractMarkdownReferences inp body currentDir inp.root
          references.foldl
            (fun va ref =>
              let refFullPath := if jsStarts ref inp.root then ref else joinP inp.root ref
              if fExists inp refFullPath ∧ ref ∉ va.2 then
                traverseRefs L inp fuel ref (va.1, va.2 ++ [ref])
              else va)
            va

/-- Embedding of `findAllReferencedFiles`. -/
def findAllReferencedFiles (L : String → YamlRes) (inp : ScanInput)
    (startFiles : List String) : List String :=
  (startFiles.foldl
    (fun va f => traverseRefs L inp (inp.files.length + startFiles.length + 1) f va)
    ([], [])).2

/-- JS `filePath.replace(root + '/', '').replace(root + '\\', '')`. -/
def relOf (root filePath : String) : String :=
  jsReplaceFirst (jsReplaceFirst filePath (root ++ "/") "") (root ++ "\\") ""

/-- State of the frontmatter scan loop (step 2 of `handleScan`). -/
structure Step2State where
  tree : TreeData
  warnings : List String
  duplicateIds : List String
  filePathToId : List (String × String)
deriving DecidableEq, Repr

/-- One iteration of the step-2 loop over discovered markdown files.
Thrown read errors become a warning, as in the source's `catch`. -/
def scanDoc (L : String → YamlRes) (inp : ScanInput) (s : Step2State)
    (filePath : String) : Step2State :=
  match readF inp filePath with
  | none => { s with warnings := s.warnings ++ ["Error processing " ++ filePath] }
  | some content =>
    let pf := fmParse L content
    let meta := pf.meta
    if ¬ truthy meta.id then
      { s with warnings := s.warnings ++
          ["File " ++ filePath ++ " is missing 'id' in frontmatter, skipping"] }
    else
      let id := meta.id.getD ""
      let title :=
        if truthy meta.title then meta.title.getD ""
        else if truthy meta.id then meta.id.getD ""
        else "Untitled"
      let parent := match meta.parent with
        | none => none
        | some p => p
      let order := match meta.order with
        | some n => n
        | none => 0
      let dupHit := (alookup s.tree id).isSome
      let duplicateIds := if dupHit then s.duplicateIds ++ [id] else s.duplicateIds
      let warnings :=
        if dupHit then
          s.warnings ++ ["Duplicate id \"" ++ id ++ "\" found in " ++ filePath ++
            ", overwriting previous entry"]
        else s.warnings
      let relPath := relOf inp.root filePath
      let references := extractMarkdownReferences inp pf.body (dirnameS filePath) inp.root
      let entry : TreeEntry :=
        { id := id
          title := title
          parent := parent
          order := order
          path := relPath
          references := if references.length > 0 then some references else none }
      { tree := aset s.tree id entry
        warnings := warnings
        duplicateIds := duplicateIds
        filePathToId := aset s.filePathToId relPath id }

/-- Candidate sequence of the id-uniquing loop: the base id, then
`base-1`, `base-2`, …. -/
def candId (base : String) : Nat → String
  | 0 => base
  | k + 1 => base ++ "-" ++ toString (k + 1)

/-- The `while (tree[uniqueId])` loop body, fuel-driven. -/
def ensureUniqueGo (tree : TreeData) (base : String) : Nat → Nat → String
  | 0, k => candId base k
  | fuel + 1, k =>
    if (alookup tree (candId base k)).isSome then ensureUniqueGo tree base fuel (k + 1)
    else candId base k

/-- Embedding of the suffixing loop `while (tree[uniqueId]) uniqueId =
`${entry.id}-${counter++}``: at most `tree.length` candidates are occupied,
so `tree.length + 1` probes suffice. -/
def ensureUnique (tree : TreeData) (base : String) : String :=
  ensureUniqueGo tree base (tree.length + 1) 0

/-- State of the referenced-file merge loop (step 4 of `handleScan`). -/
structure Step4State where
  tree : TreeData
  filePathToId : List (String × String)
  warnings : List String
deriving DecidableEq, Repr

/-- One iteration of the step-4 loop over the reference closure. -/
def addReferencedFile (L : String → YamlRes) (inp : ScanInput) (s : Step4State)
    (refPath : String) : Step4State :=
  let skip : Bool :=
    match alookup s.filePathToId refPath with
    | some exId => exId != "" && (alookup s.tree exId).isSome
    | none => false
  if skip then s
  else
    let fullPath := if jsStarts refPath inp.root then refPath else joinP inp.root refPath
    if ¬ fExists inp fullPath then s
    else
      match readF inp fullPath with
      | none =>
        { s with warnings := s.warnings ++ ["Error processing referenced file " ++ refPath] }
      | some content =>
        if truthy (fmParse L content).meta.id then s
        else
          let entry := generateEntryForReferencedFile fullPath inp.root
          let uniqueId := ensureUnique s.tree entry.id
          let entry := { entry with id := uniqueId }
          { tree := aset s.tree uniqueId entry
            filePathToId := aset s.filePathToId refPath uniqueId
            warnings := s.warnings }

/-- The `Object.values(tree).find(...)` search of the source-file linking
loop, returning the key together with the entry. -/
def findMatchingModule (tree : TreeData) (sf : SourceFileInfo) :
    Option (String × TreeEntry) :=
  tree.find? (fun kv =>
    kv.2.id == sf.suggestedModuleId ||
    (match sf.suggestedParentId with
     | some p => kv.2.id == p
     | none => false) ||
    (kv.2.path != "" &&
      jsIncludes sf.relativePath (jsReplaceFirst kv.2.path ".ai-docs/docs/" "")))

/-- One iteration of the step-5 source-file loop: link into a matching
module, or (with auto-link) create a virtual entry, synthesizing its
missing parent module when some source file maps to that parent.  The
`sourceFileToModule` map the source also fills is never read afterwards
and is omitted. -/
def linkSourceFile (sfs : List SourceFileInfo) (opts : ScanOptions) (tree : TreeData)
    (sf : SourceFileInfo) : TreeData :=
  match findMatchingModule tree sf with
  | some kv =>
    amodify tree kv.1
      (fun e => { e with sourceFiles := some ((e.sourceFiles.getD []) ++ [sf.relativePath]) })
  | none =>
    if ¬ opts.autoLink then tree
    else
      let entry := generateEntryForSourceFile sf
      let uniqueId := ensureUnique tree entry.id
      let entry := { entry with id := uniqueId }
      let te : TreeData × TreeEntry :=
        match entry.parent with
        | some p =>
          if p ≠ "" ∧ alookup tree p = none then
            let parentFiles := sfs.filter (fun f => f.suggestedParentId == some p)
            if parentFiles.length > 0 then
              (aset tree p
                { id := p
                  title :=
                    (match cl p with
                     | [] => ""
                     | c :: rest =>
                       st (c.toUpper :: rest.map (fun d => if d = '-' then ' ' else d)))
                  parent := some "root"
                  order := 10
                  path := ""
                  sourceFiles := some []
                  isSourceFile := some false }, entry)
            else (tree, { entry with parent := none })
          else (tree, entry)
        | none => (tree, entry)
      aset te.1 uniqueId te.2

/-- One iteration of the suggestion-application loop (step 5, when not in
suggest-only mode). -/
def applySuggestion (tree : TreeData) (s : HierarchySuggestion) : TreeData :=
  if s.confidence = .high then
    match alookup tree s.moduleId with
    | some e =>
      if e.parent = some "root" ∨ e.parent = none then
        amodify tree s.moduleId
          (fun e => { e with
            parent := some s.suggestedParent
            suggestedParent := some s.suggestedParent })
      else tree
    | none => tree
  else tree

/-- Step 5 as a whole: compute suggestions against the pre-link tree, run
the source-file linking loop, then apply the suggestions unless in
suggest-only mode. -/
def step5 (opts : ScanOptions) (sfs : List SourceFileInfo) (tree : TreeData) :
    TreeData × List HierarchySuggestion :=
  let suggestions := suggestModuleHierarchy sfs tree
  let tree2 := sfs.foldl (linkSourceFile sfs opts) tree
  let tree3 :=
    if ¬ opts.suggestOnly ∧ suggestions.length > 0 then
      suggestions.foldl applySuggestion tree2
    else tree2
  (tree3, suggestions)

/-- Step 6: fill `sourceFiles` of entries not already linked. -/
def updateSourceFilesStep (sfs : List SourceFileInfo) (tree : TreeData) : TreeData :=
  tree.map (fun kv =>
    match kv.2.sourceFiles with
    | some (_ :: _) => kv
    | _ =>
      let moduleSourceFiles := sfs.filter (fun sf =>
        let mapping := mapSourceToModule sf.relativePath
        mapping.moduleId == kv.1 || mapping.parentId == some kv.1)
      if moduleSourceFiles.length > 0 then
        (kv.1, { kv.2 with sourceFiles := some (moduleSourceFiles.map (·.relativePath)) })
      else kv)

/-- Step 8: the `childrenMap` built from the parent relation. -/
def buildChildrenMap (tree : TreeData) : List (String × List String) :=
  tree.foldl
    (fun m kv =>
      match kv.2.parent with
      | some p => madd m p kv.1
      | none => m)
    []

/-- An entry as serialized: the entry plus its `children` array. -/
structure OutEntry where
  entry : TreeEntry
  children : List String
deriving DecidableEq, Repr

/-- Step 8: `treeWithChildren`. -/
def withChildren (tree : TreeData) : List (String × OutEntry) :=
  tree.map (fun kv => (kv.1, ⟨kv.2, (alookup (buildChildrenMap tree) kv.1).getD []⟩))

/-- Observable outcome of one run: whether it aborted (`process.exit(1)`),
the trace of tree-file writes, and the accumulated diagnostics. -/
structure ScanResult where
  fatal : Bool
  writes : List (String × List (String × OutEntry))
  warnings : List String
  duplicateIds : List String
  suggestions : List HierarchySuggestion
  tree : TreeData
deriving DecidableEq, Repr

/-- Result of the assembly steps 2-6 (parse, closure merge, code
structure), before validation and serialization. -/
structure CoreOut where
  tree : TreeData
  warnings : List String
  duplicateIds : List String
  suggestions : List HierarchySuggestion
deriving DecidableEq, Repr

/-- Steps 2-6 of `handleScan`: the frontmatter scan fold, the
reference-closure merge fold, and the optional code-structure stage. -/
def scanCore (L : String → YamlRes) (inp : ScanInput) (opts : ScanOptions)
    (mdFiles : List String) : CoreOut :=
  let s2 := mdFiles.foldl (scanDoc L inp) ⟨[], [], [], []⟩
  let allReferencedPaths := findAllReferencedFiles L inp (s2.filePathToId.map Prod.fst)
  let s4 := allReferencedPaths.foldl (addReferencedFile L inp)
    ⟨s2.tree, s2.filePathToId, s2.warnings⟩
  let codeStructure : Option (List SourceFileInfo) :=
    if opts.analyzeCode then some (analyzeCodeStructure inp.root inp.sourceScan) else none
  let ts : TreeData × List HierarchySuggestion :=
    match codeStructure with
    | none => (s4.tree, [])
    | some sfs => step5 opts sfs s4.tree
  let tree6 :=
    match codeStructure with
    | some sfs => updateSourceFilesStep sfs ts.1
    | none => ts.1
  ⟨tree6, s4.warnings, s2.duplicateIds, ts.2⟩

/-- Embedding of `handleScan`. -/
def handleScan (L : String → YamlRes) (inp : ScanInput) (opts : ScanOptions)
    (_env : Env) : ScanResult :=
  let root := inp.root
  let docsDir := joinP (joinP root ".ai-docs") "docs"
  if ¬ inp.docsDirExists then
    { fatal := true, writes := [], warnings := [], duplicateIds := [],
      suggestions := [], tree := [] }
  else
    let filesMdFiles := if inp.filesDirExists then inp.filesMdFiles else []
    let mdFiles := inp.docsMdFiles ++ filesMdFiles
    if mdFiles.length = 0 then
      { fatal := false, writes := [(joinP docsDir "ai-tree.json", [])],
        warnings := [], duplicateIds := [], suggestions := [], tree := [] }
    else
      let core := scanCore L inp opts mdFiles
      let validation := validateHierarchy core.tree
      let warnings := core.warnings ++
        validation.2.map (fun o => "Node \"" ++ o ++ "\" references non-existent parent")
      let warnings :=
        if validation.1.length > 0 then
          warnings ++ ["Circular parent references detected: " ++ joinSep "; " validation.1]
        else warnings
      { fatal := false
        writes := [(joinP docsDir "ai-tree.json", withChildren core.tree)]
        warnings := warnings
        duplicateIds := core.duplicateIds
        suggestions := core.suggestions
        tree := core.tree }

/-! ## Derived observables and spec-side definitions -/

/-- Keys of an association list. -/
def keysOf {α : Type} (t : List (String × α)) : List String := t.map Prod.fst

/-- The single location the tree is persisted to. -/
def treePathOf (root : String) : String :=
  joinP (joinP (joinP root ".ai-docs") "docs") "ai-tree.json"

/-- Contents of the file at `p` after replaying a write trace over a prior
state. -/
def finalFile {α : Type} (prior : Option α) (writes : List (String × α))
    (p : String) : Option α :=
  writes.foldl (fun cur w => if w.1 = p then some w.2 else cur) prior

/-- One group's contribution to the suggestion list (used to characterize
the `suggestModuleHierarchy` fold). -/
def suggestionsOfGroup (existingModules : TreeData)
    (kv : String × List SourceFileInfo) : List HierarchySuggestion :=
  (if (alookup existingModules kv.1).isSome then []
   else [createParentSuggestion kv.1 kv.2]) ++
    kv.2.filterMap (fileSuggestion existingModules kv.1)

/-- Spec-side character map for referenced-file ids, as the implementation
actually behaves: keep letters, digits and hyphens (lower-cased), replace
every other single character by its own hyphen. -/
def specRefIdChar (c : Char) : Char :=
  if isAlnumCI c ∨ c = '-' then c.toLower else '-'

/-- Spec-side title derivation, following the spec's words: capitalize
each hyphen- or underscore-separated word of the filename, joined by
spaces. -/
def specTitleCase (s : String) : String :=
  joinSep " " ((splitP (fun c => c == '-' || c == '_') (cl s)).map capWord)

/-- The id derivation as the claim words it: lower-case and collapse each
run of non-alphanumeric characters to a single hyphen.  Used only to
contrast with the implementation's per-character replacement. -/
def specRunCollapsedId (s : String) : String :=
  st (collapseBadGo false ((cl s).map Char.toLower))

/-! ## Concrete scenario inputs

The header texts below are the exact frontmatter blocks used in the
scenario documents, and `yamlTable` records the external YAML library's
result on them (js-yaml parses `key: value` lines into a mapping; it
parses a bare scalar document such as `hello` into a string, which is not
a mapping; on anything else here the scenarios never consult it, and the
table answers that it throws). -/

def fmRoot : String := "id: root\ntitle: Project Overview\nparent: null\norder: 0"

def fmBilling : String := "id: billing\ntitle: Billing Module\nparent: root\norder: 20"

def fmDup1 : String := "id: dup\ntitle: First"

def fmDup2 : String := "id: dup\ntitle: Second"

def fmCycA : String := "id: a\ntitle: A\nparent: b"

def fmCycB : String := "id: b\ntitle: B\nparent: a"

def fmNotes : String := "id: notes\ntitle: Notes"

/-- Finite model of the external YAML library on the scenario headers. -/
def yamlTable : String → YamlRes := fun s =>
  if s = fmRoot then
    .mapping { id := some "root", title := some "Project Overview",
               parent := some none, order := some 0 }
  else if s = fmBilling then
    .mapping { id := some "billing", title := some "Billing Module",
               parent := some (some "root"), order := some 20 }
  else if s = fmDup1 then .mapping { id := some "dup", title := some "First" }
  else if s = fmDup2 then .mapping { id := some "dup", title := some "Second" }
  else if s = fmCycA then
    .mapping { id := some "a", title := some "A", parent := some (some "b") }
  else if s = fmCycB then
    .mapping { id := some "b", title := some "B", parent := some (some "a") }
  else if s = fmNotes then .mapping { id := some "notes", title := some "Notes" }
  else if s = "hello" then .nonMapping
  else .err

/-- A document with the given header block and body. -/
def docOf (fm body : String) : String := "---\n" ++ fm ++ "\n---\n" ++ body

/-- Two well-formed documents `root` and `billing`, no links, no source
files (the spec's two-node scenario). -/
def inpTwoDocs : ScanInput :=
  { root := "proj", docsDirExists := true, filesDirExists := false
    docsMdFiles := ["proj/.ai-docs/docs/ai-index.md", "proj/.ai-docs/docs/billing.md"]
    filesMdFiles := []
    files := [("proj/.ai-docs/docs/ai-index.md", docOf fmRoot "Root body."),
              ("proj/.ai-docs/docs/billing.md", docOf fmBilling "Billing body.")]
    sourceScan := [] }

/-- Two documents both declaring `id: dup`, the second discovered later. -/
def inpDup : ScanInput :=
  { root := "proj", docsDirExists := true, filesDirExists := false
    docsMdFiles := ["proj/.ai-docs/docs/dup1.md", "proj/.ai-docs/docs/dup2.md"]
    filesMdFiles := []
    files := [("proj/.ai-docs/docs/dup1.md", docOf fmDup1 "First body."),
              ("proj/.ai-docs/docs/dup2.md", docOf fmDup2 "Second body.")]
    sourceScan := [] }

/-- Two documents whose parents form a two-cycle `a -> b -> a`. -/
def inpCyc : ScanInput :=
  { root := "proj", docsDirExists := true, filesDirExists := false
    docsMdFiles := ["proj/.ai-docs/docs/a.md", "proj/.ai-docs/docs/b.md"]
    filesMdFiles := []
    files := [("proj/.ai-docs/docs/a.md", docOf fmCycA "A body."),
              ("proj/.ai-docs/docs/b.md", docOf fmCycB "B body.")]
    sourceScan := [] }

/-- One root document plus a single discovered source file
`src/commands/foo.ts` (so nothing else maps to the inferred parent
`commands`). -/
def inpSrc : ScanInput :=
  { root := "proj", docsDirExists := true, filesDirExists := false
    docsMdFiles := ["proj/.ai-docs/docs/ai-index.md"]
    filesMdFiles := []
    files := [("proj/.ai-docs/docs/ai-index.md", docOf fmRoot "Root body.")]
    sourceScan := ["src/commands/foo.ts"] }

/-- A document with id `notes` whose body links to the headerless
`notes.md`, whose generated id collides with `notes`. -/
def inpNotes : ScanInput :=
  { root := "proj", docsDirExists := true, filesDirExists := false
    docsMdFiles := ["proj/.ai-docs/docs/main.md"]
    filesMdFiles := []
    files := [("proj/.ai-docs/docs/main.md", docOf fmNotes "see [n](./notes.md)"),
              ("proj/.ai-docs/docs/notes.md", "Plain notes content.")]
    sourceScan := [] }

/-- An input whose managed documentation root is missing. -/
def inpFatal : ScanInput :=
  { root := "proj", docsDirExists := false, filesDirExists := false
    docsMdFiles := []
    filesMdFiles := []
    files := []
    sourceScan := [] }

/-- A document whose metadata block is the scalar `hello`: the YAML
library returns a non-mapping value for it. -/
def scalarHeaderDoc : String := docOf "hello" "Body text."

/-- The `SourceFileInfo` produced for `src/commands/foo.ts` (equal to
`analyzeCodeStructure "proj" ["src/commands/foo.ts"]`'s only element). -/
def sfFoo : SourceFileInfo :=
  { path := "proj/src/commands/foo.ts"
    relativePath := "src/commands/foo.ts"
    directory := "src/commands"
    fileName := "foo"
    extension := ".ts"
    suggestedModuleId := "command-foo"
    suggestedParentId := some "commands" }

/-- Invariant of the validator walk: every visited id missing from the
tree has been pushed to the orphan list, and every visited id's parent has
itself been reached (visited or on the current grey stack). -/
def VInv (tree : TreeData) (s : VState) : Prop :=
  (∀ m ∈ s.visited, alookup tree m = none → m ∈ s.orphaned) ∧
  (∀ m ∈ s.visited, ∀ e p, alookup tree m = some e → e.parent = some p →
     p ∈ s.visited ∨ p ∈ s.visiting)

/-! ## Helper lemmas on the association-list primitives -/

theorem alookup_aset {α : Type} (t : List (String × α)) (k : String) (v : α)
    (k' : String) :
    alookup (aset t k v) k' = if k = k' then some v else alookup t k' := by
  induction t with
  | nil => simp [aset, alookup]
  | cons hd tl ih =>
    by_cases h1 : hd.1 = k
    · by_cases h2 : k = k' <;> simp [aset, alookup, h1, h2]
    · by_cases h2 : hd.1 = k' <;> by_cases h3 : k = k' <;>
        simp_all [aset, alookup]

theorem mem_keysOf_aset {α : Type} (t : List (String × α)) (k : String) (v : α)
    (x : String) (hx : x ∈ keysOf (aset t k v)) : x ∈ keysOf t ∨ x = k := by
  induction t with
  | nil => simpa [aset, keysOf] using hx
  | cons hd tl ih =>
    by_cases h1 : hd.1 = k
    · simp_all [aset, keysOf]
    · simp only [aset, if_neg h1, keysOf, List.map_cons, List.mem_cons] at hx ⊢
      rcases hx with hx | hx
      · exact Or.inl (Or.inl hx)
      · rcases ih hx with h | h
        · exact Or.inl (Or.inr h)
        · exact Or.inr h

theorem keysOf_aset_nodup {α : Type} (t : List (String × α)) (k : String) (v : α)
    (h : (keysOf t).Nodup) : (keysOf (aset t k v)).Nodup := by
  induction t with
  | nil => simp [aset, keysOf]
  | cons hd tl ih =>
    simp only [keysOf, List.map_cons, List.nodup_cons] at h
    by_cases h1 : hd.1 = k
    · simp only [aset, if_pos h1, keysOf, List.map_cons, List.nodup_cons]
      exact ⟨h.1, h.2⟩
    · simp only [aset, if_neg h1, keysOf, List.map_cons, List.nodup_cons]
      refine ⟨fun hm => ?_, ih h.2⟩
      rcases mem_keysOf_aset tl k v hd.1 hm with hm | hm
      · exact h.1 hm
      · exact h1 hm

theorem keysOf_amodify {α : Type} (t : List (String × α)) (k : String)
    (f : α → α) : keysOf (amodify t k f) = keysOf t := by
  induction t with
  | nil => rfl
  | cons hd tl ih =>
    by_cases h1 : hd.1 = k <;> simp_all [amodify, keysOf]

theorem alookup_none_iff {α : Type} (t : List (String × α)) (k : String) :
    alookup t k = none ↔ k ∉ keysOf t := by
  induction t with
  | nil => simp [alookup, keysOf]
  | cons hd tl ih =>
    by_cases h1 : hd.1 = k <;> simp_all [alookup, keysOf, eq_comm]

theorem alookup_of_mem_nodup {α : Type} (t : List (String × α)) (k : String)
    (v : α) (hmem : (k, v) ∈ t) (hnd : (keysOf t).Nodup) : alookup t k = some v := by
  induction t with
  | nil => cases hmem
  | cons hd tl ih =>
    simp only [keysOf, List.map_cons, List.nodup_cons] at hnd
    rcases List.mem_cons.mp hmem with h | h
    · subst h; simp [alookup]
    · have hk : hd.1 ≠ k := by
        intro he
        exact hnd.1 (he ▸ List.mem_map_of_mem Prod.fst h)
      simp only [alookup, if_neg hk]
      exact ih h hnd.2

theorem alookup_madd {β : Type} (m : List (String × List β)) (k : String) (v : β)
    (k' : String) :
    alookup (madd m k v) k' =
      if k = k' then some ((alookup m k).getD [] ++ [v]) else alookup m k' := by
  induction m with
  | nil => by_cases h : k = k' <;> simp [madd, alookup, h]
  | cons hd tl ih =>
    by_cases h1 : hd.1 = k
    · by_cases h2 : k = k' <;> simp_all [madd, alookup]
    · by_cases h2 : hd.1 = k' <;> by_cases h3 : k = k' <;> simp_all [madd, alookup]

theorem foldl_preserve {α β : Type} (P : α → Prop) (f : α → β → α)
    (H : ∀ a b, P a → P (f a b)) :
    ∀ (l : List β) (a : α), P a → P (l.foldl f a) := by
  intro l
  induction l with
  | nil => intro a ha; exact ha
  | cons hd tl ih => intro a ha; exact ih (f a hd) (H a hd ha)

/-! ## Children derivation lemmas -/

theorem alookup_childrenFold (l : TreeData) :
    ∀ (m : List (String × List String)) (p : String),
    (alookup (l.foldl
        (fun m kv => match kv.2.parent with
          | some q => madd m q kv.1
          | none => m) m) p).getD [] =
      (alookup m p).getD [] ++
        (l.filter (fun kv => kv.2.parent == some p)).map Prod.fst := by
  induction l with
  | nil => intro m p; simp
  | cons hd tl ih =>
    intro m p
    simp only [List.foldl_cons, List.filter_cons]
    cases hpar : hd.2.parent with
    | none => simp [ih, hpar]
    | some q =>
      by_cases hq : q = p
      · subst hq
        simp only [hpar, ih, alookup_madd, if_pos rfl, Option.getD_some]
        simp [List.append_assoc]
      · simp only [hpar, ih, alookup_madd, if_neg hq, beq_iff_eq]
        have : (some q == some p) = false := by
          simp [hq]
        simp [this, hq]

theorem children_of_withChildren (tree : TreeData) (kv : String × OutEntry)
    (hmem : kv ∈ withChildren tree) :
    kv.2.children = (tree.filter (fun kv' => kv'.2.parent == some kv.1)).map Prod.fst := by
  simp only [withChildren, List.mem_map] at hmem
  obtain ⟨a, _, rfl⟩ := hmem
  simpa [buildChildrenMap, alookup] using alookup_childrenFold tree [] a.1

/-! ## Shape of a run: fatality and the write trace -/

theorem handleScan_shape (L : String → YamlRes) (inp : ScanInput)
    (opts : ScanOptions) (env : Env) :
    (inp.docsDirExists = false →
      (handleScan L inp opts env).fatal = true ∧
        (handleScan L inp opts env).writes = []) ∧
    (inp.docsDirExists = true →
      (handleScan L inp opts env).fatal = false ∧
        (handleScan L inp opts env).writes =
          [(treePathOf inp.root, withChildren (handleScan L inp opts env).tree)]) := by
  constructor
  · intro h
    simp [handleScan, h]
  · intro h
    simp only [handleScan, h, Bool.true_eq_false, not_true_eq_false, if_false,
      Bool.false_eq_true]
    split <;> split <;> simp [treePathOf, withChildren]

/-! ## Unique keys: every mutation of the tree object preserves key
uniqueness, so the final map's ids are unique -/

theorem scanDoc_keys_nodup (L : String → YamlRes) (inp : ScanInput)
    (s : Step2State) (f : String) (h : (keysOf s.tree).Nodup) :
    (keysOf (scanDoc L inp s f).tree).Nodup := by
  simp only [scanDoc]
  repeat' split
  all_goals first
    | exact h
    | exact keysOf_aset_nodup _ _ _ h

theorem addReferencedFile_keys_nodup (L : String → YamlRes) (inp : ScanInput)
    (s : Step4State) (r : String) (h : (keysOf s.tree).Nodup) :
    (keysOf (addReferencedFile L inp s r).tree).Nodup := by
  simp only [addReferencedFile]
  repeat' split
  all_goals first
    | exact h
    | exact keysOf_aset_nodup _ _ _ h

theorem linkSourceFile_keys_nodup (sfs : List SourceFileInfo) (opts : ScanOptions)
    (tree : TreeData) (sf : SourceFileInfo) (h : (keysOf tree).Nodup) :
    (keysOf (linkSourceFile sfs opts tree sf)).Nodup := by
  simp only [linkSourceFile]
  repeat' split
  all_goals first
    | exact h
    | (rw [keysOf_amodify]; exact h)
    | exact keysOf_aset_nodup _ _ _ h
    | exact keysOf_aset_nodup _ _ _ (keysOf_aset_nodup _ _ _ h)

theorem applySuggestion_keys_nodup (tree : TreeData) (s : HierarchySuggestion)
    (h : (keysOf tree).Nodup) : (keysOf (applySuggestion tree s)).Nodup := by
  simp only [applySuggestion]
  repeat' split
  all_goals first
    | exact h
    | (rw [keysOf_amodify]; exact h)

theorem keysOf_updateSourceFilesStep (sfs : List SourceFileInfo) (tree : TreeData) :
    keysOf (updateSourceFilesStep sfs tree) = keysOf tree := by
  unfold updateSourceFilesStep keysOf
  rw [List.map_map]
  apply List.map_congr_left
  intro kv _
  simp only [Function.comp_apply]
  split
  · rfl
  · split <;> rfl

theorem step5_keys_nodup (opts : ScanOptions) (sfs : List SourceFileInfo)
    (tree : TreeData) (h : (keysOf tree).Nodup) :
    (keysOf (step5 opts sfs tree).1).Nodup := by
  simp only [step5]
  have h2 := foldl_preserve (fun t => (keysOf t).Nodup) (linkSourceFile sfs opts)
    (fun a b ha => linkSourceFile_keys_nodup sfs opts a b ha) sfs tree h
  split
  · exact foldl_preserve (fun t => (keysOf t).Nodup) applySuggestion
      (fun a b ha => applySuggestion_keys_nodup a b ha) _ _ h2
  · exact h2

theorem scanCore_keys_nodup (L : String → YamlRes) (inp : ScanInput)
    (opts : ScanOptions) (mdFiles : List String) :
    (keysOf (scanCore L inp opts mdFiles).tree).Nodup := by
  have h2 : ∀ (l : List String) (s : Step2State), (keysOf s.tree).Nodup →
      (keysOf (l.foldl (scanDoc L inp) s).tree).Nodup :=
    fun l s hs => foldl_preserve (fun s => (keysOf s.tree).Nodup) (scanDoc L inp)
      (fun a b ha => scanDoc_keys_nodup L inp a b ha) l s hs
  have h4 : ∀ (l : List String) (s : Step4State), (keysOf s.tree).Nodup →
      (keysOf (l.foldl (addReferencedFile L inp) s).tree).Nodup :=
    fun l s hs => foldl_preserve (fun s => (keysOf s.tree).Nodup)
      (addReferencedFile L inp)
      (fun a b ha => addReferencedFile_keys_nodup L inp a b ha) l s hs
  have hbase : (keysOf (([] : List (String × TreeEntry)))).Nodup := by
    simp [keysOf]
  by_cases hac : opts.analyzeCode
  · simp only [scanCore, hac, if_true]
    rw [keysOf_updateSourceFilesStep]
    exact step5_keys_nodup _ _ _ (h4 _ _ (h2 _ _ hbase))
  · simp only [scanCore, hac, if_false, Bool.false_eq_true]
    exact h4 _ _ (h2 _ _ hbase)

theorem handleScan_keys_nodup (L : String → YamlRes) (inp : ScanInput)
    (opts : ScanOptions) (env : Env) :
    (keysOf (handleScan L inp opts env).tree).Nodup := by
  simp only [handleScan]
  repeat' split
  all_goals first
    | exact scanCore_keys_nodup L inp opts _
    | simp [keysOf]

theorem mapfst_filter_parent (t : TreeData) (c : String → List String) (k : String) :
    ((t.map (fun kv => (kv.1, (⟨kv.2, c kv.1⟩ : OutEntry)))).filter
        (fun kv' => kv'.2.entry.parent == some k)).map Prod.fst =
      (t.filter (fun kv' => kv'.2.parent == some k)).map Prod.fst := by
  induction t with
  | nil => rfl
  | cons hd tl ih =>
    simp only [List.map_cons, List.filter_cons]
    by_cases hp : hd.2.parent == some k
    · simp [hp, ih]
    · simp only [Bool.not_eq_true] at hp
      simp [hp, ih]

theorem children_of_payload (t : TreeData) (kv : String × OutEntry)
    (h : kv ∈ withChildren t) :
    kv.2.children =
      ((withChildren t).filter (fun kv' => kv'.2.entry.parent == some kv.1)).map
        Prod.fst := by
  rw [children_of_withChildren t kv h]
  exact (mapfst_filter_parent t
    (fun k => (alookup (buildChildrenMap t) k).getD []) kv.1).symm

/-- C9: the builder is deterministic: its embedding is a pure function of
the discovered inputs, and the ambient per-run state (the wall clock in
`Env`) is never consulted, so two runs over an unchanged input set produce
identical results — in particular an identical write trace, and hence
byte-identical persisted output under the (deterministic) JSON printer. -/
theorem handleScan_deterministic (L : String → YamlRes) (inp : ScanInput)
    (opts : ScanOptions) (e1 e2 : Env) :
    handleScan L inp opts e1 = handleScan L inp opts e2 := rfl

/-- C7: when the managed documentation root is missing the run is fatal,
nothing is written, and any previously persisted tree file is untouched;
otherwise the run is not fatal and the write trace is exactly one terminal
write, of the fully assembled structure, to the tree path. -/
theorem handleScan_single_terminal_write (L : String → YamlRes) (inp : ScanInput)
    (opts : ScanOptions) (env : Env) :
    (inp.docsDirExists = false →
      (handleScan L inp opts env).fatal = true ∧
      (handleScan L inp opts env).writes = [] ∧
      ∀ (prior : Option (List (String × OutEntry))) (p : String),
        finalFile prior (handleScan L inp opts env).writes p = prior) ∧
    (inp.docsDirExists = true →
      (handleScan L inp opts env).fatal = false ∧
      (handleScan L inp opts env).writes =
        [(treePathOf inp.root, withChildren (handleScan L inp opts env).tree)]) := by
  obtain ⟨h1, h2⟩ := handleScan_shape L inp opts env
  refine ⟨fun h => ?_, h2⟩
  obtain ⟨hf, hw⟩ := h1 h
  exact ⟨hf, hw, fun prior p => by rw [hw]; rfl⟩

theorem handleScan_single_terminal_write_witness :
    (handleScan yamlTable inpFatal {} ⟨0⟩).writes = [] ∧
    (handleScan yamlTable inpTwoDocs {} ⟨0⟩).writes =
      [(treePathOf "proj",
        withChildren (handleScan yamlTable inpTwoDocs {} ⟨0⟩).tree)] :=
  ⟨((handleScan_single_terminal_write yamlTable inpFatal {} ⟨0⟩).1 rfl).2.1,
   ((handleScan_single_terminal_write yamlTable inpTwoDocs {} ⟨0⟩).2 rfl).2⟩

/-- C8: in every written payload, each node's `children` array is exactly
the ids of the payload nodes whose `parent` equals that node's id; and on
the concrete two-document input (`root` ← `billing`, no links, no source
files) the output holds exactly two nodes with `root.children =
["billing"]` and `billing.children = []`. -/
theorem children_match_parent_relation :
    (∀ (L : String → YamlRes) (inp : ScanInput) (opts : ScanOptions) (env : Env)
       (p : String) (payload : List (String × OutEntry)) (kv : String × OutEntry),
       (p, payload) ∈ (handleScan L inp opts env).writes → kv ∈ payload →
       kv.2.children =
         (payload.filter (fun kv' => kv'.2.entry.parent == some kv.1)).map Prod.fst) ∧
    ((handleScan yamlTable inpTwoDocs {} ⟨0⟩).writes.map
        (fun w => w.2.map (fun kv => (kv.1, kv.2.children)))) =
      [[("root", ["billing"]), ("billing", [])]] := by
  constructor
  · intro L inp opts env p payload kv hw hkv
    obtain ⟨h1, h2⟩ := handleScan_shape L inp opts env
    cases hd : inp.docsDirExists with
    | false =>
      rw [(h1 hd).2] at hw
      cases hw
    | true =>
      rw [(h2 hd).2] at hw
      rcases List.mem_singleton.mp hw with h
      have hpayload : payload = withChildren (handleScan L inp opts env).tree :=
        congrArg Prod.snd h
      subst hpayload
      exact children_of_payload _ kv hkv
  · decide

theorem children_match_parent_relation_witness :
    (handleScan yamlTable inpTwoDocs {} ⟨0⟩).writes.map
        (fun w => w.2.map (fun kv => (kv.1, kv.2.children))) =
      [[("root", ["billing"]), ("billing", [])]] ∧
    ((handleScan yamlTable inpTwoDocs ⟨true, false, true⟩ ⟨0⟩).writes.map Prod.fst =
        [treePathOf "proj"]) := by
  constructor
  · exact children_match_parent_relation.2
  · decide

/-- C5 (amended): for every input text the parser returns empty metadata
together with the original full text unchanged as body whenever (a) the
text does not begin with the delimiter line, (b) no closing delimiter line
is found, or (c) the YAML library does not produce a key-value mapping for
the block; the fallback logs a warning exactly when the library throws —
when it returns a non-mapping value the fallback is silent. -/
theorem fmParse_malformed_preserves_body (L : String → YamlRes) (content : String)
    (h : ¬ jsStarts content "---\n" = true ∨
         jsIndexOfFrom content "\n---\n" 4 = none ∨
         (∀ idx, jsIndexOfFrom content "\n---\n" 4 = some idx →
            ∀ m, L (jsSlice content 4 idx) ≠ .mapping m)) :
    (fmParse L content).meta = {} ∧ (fmParse L content).body = content ∧
    ((fmParse L content).warned = true ↔
      (jsStarts content "---\n" = true ∧
       ∃ idx, jsIndexOfFrom content "\n---\n" 4 = some idx ∧
         L (jsSlice content 4 idx) = .err)) := by
  unfold fmParse
  by_cases h1 : jsStarts content "---\n"
  · cases h2 : jsIndexOfFrom content "\n---\n" 4 with
    | none => simp [h1, h2]
    | some idx =>
      cases h3 : L (jsSlice content 4 idx) with
      | err => simp [h1, h2, h3]
      | nonMapping => simp [h1, h2, h3]
      | mapping m =>
        rcases h with h | h | h
        · exact absurd h1 h
        · rw [h2] at h; cases h
        · exact absurd h3 (h idx h2 m)
  · simp [h1]

theorem fmParse_malformed_preserves_body_witness :
    (fmParse yamlTable "plain text, no header").meta = {} ∧
    (fmParse yamlTable "plain text, no header").body = "plain text, no header" ∧
    ((fmParse yamlTable "plain text, no header").warned = true ↔
      (jsStarts "plain text, no header" "---\n" = true ∧
       ∃ idx, jsIndexOfFrom "plain text, no header" "\n---\n" 4 = some idx ∧
         yamlTable (jsSlice "plain text, no header" 4 idx) = .err)) :=
  fmParse_malformed_preserves_body yamlTable "plain text, no header"
    (Or.inl (by decide))

/-- C5 counterexample: a delimited block whose content is the scalar
`hello` — the YAML library parses it to a non-mapping value, i.e. the
block fails to parse as a structured key-value mapping — falls back to
empty metadata and the original full text, but NO warning is logged,
contradicting the claim's "in which case a warning is logged". -/
theorem fmParse_nonMapping_silent :
    yamlTable "hello" = .nonMapping ∧
    jsSlice scalarHeaderDoc 4 9 = "hello" ∧
    jsIndexOfFrom scalarHeaderDoc "\n---\n" 4 = some 9 ∧
    (fmParse yamlTable scalarHeaderDoc).meta = {} ∧
    (fmParse yamlTable scalarHeaderDoc).body = scalarHeaderDoc ∧
    (fmParse yamlTable scalarHeaderDoc).warned = false := by decide

/-- C1 counterexample: two scanned documents both declaring `id: dup` —
the assembled output holds a single node `dup` carrying the
later-discovered document's content, a warning is recorded, and no
`dup-1` node exists, contradicting the claimed second node `dup-1`
holding the earlier content. -/
theorem duplicate_id_no_suffixed_node :
    alookup (handleScan yamlTable inpDup {} ⟨0⟩).tree "dup-1" = none ∧
    ((handleScan yamlTable inpDup {} ⟨0⟩).tree.map
      (fun kv => (kv.1, kv.2.title, kv.2.path))) =
      [("dup", "Second", ".ai-docs/docs/dup2.md")] ∧
    (handleScan yamlTable inpDup {} ⟨0⟩).warnings =
      ["Duplicate id \"dup\" found in proj/.ai-docs/docs/dup2.md, overwriting previous entry"] ∧
    (handleScan yamlTable inpDup {} ⟨0⟩).duplicateIds = ["dup"] := by decide

/-- C1 (amended): when two scanned documents declare the same id the later
one OVERWRITES the earlier at that id (a warning and the duplicate list
record the collision; no suffixed node is created); the incrementing
`-1`, `-2`, … suffixing applies to generated nodes — here the headerless
referenced `notes.md`, whose generated id collides with the explicit
`notes`, becomes `notes-1` — and the ids of the final map are always
unique. -/
theorem duplicate_id_policy :
    ((handleScan yamlTable inpDup {} ⟨0⟩).tree.map
      (fun kv => (kv.1, kv.2.title))) = [("dup", "Second")] ∧
    alookup (handleScan yamlTable inpDup {} ⟨0⟩).tree "dup-1" = none ∧
    (handleScan yamlTable inpDup {} ⟨0⟩).duplicateIds = ["dup"] ∧
    ((handleScan yamlTable inpNotes {} ⟨0⟩).tree.map
      (fun kv => (kv.1, kv.2.isReferenced))) =
      [("notes", none), ("notes-1", some true)] ∧
    (∀ (L : String → YamlRes) (inp : ScanInput) (opts : ScanOptions) (env : Env),
      (keysOf (handleScan L inp opts env).tree).Nodup) :=
  ⟨by decide, by decide, by decide, by decide, handleScan_keys_nodup⟩

/-- C6 (amended): every node synthesized for a referenced headerless
document has null parent, the low-priority order 999, `isReferenced`
set, the title-cased filename as title, and an id obtained from the
docs-prefix-stripped, `.md`-stripped relative path by lower-casing and
replacing EACH character outside letters, digits and hyphen by its own
hyphen (runs are not collapsed). -/
theorem referenced_entry_fields (filePath root : String) :
    (generateEntryForReferencedFile filePath root).parent = none ∧
    (generateEntryForReferencedFile filePath root).order = 999 ∧
    (generateEntryForReferencedFile filePath root).isReferenced = some true ∧
    (generateEntryForReferencedFile filePath root).title =
      specTitleCase (basenameSuf filePath ".md") ∧
    (generateEntryForReferencedFile filePath root).id =
      st ((stripSuffixL
          (cl (jsReplaceFirst (relOf root filePath) ".ai-docs/docs/" ""))
          (cl ".md")).map specRefIdChar) := by
  refine ⟨rfl, rfl, rfl, rfl, ?_⟩
  show st ((((stripSuffixL
      (cl (jsReplaceFirst (relOf root filePath) ".ai-docs/docs/" ""))
      (cl ".md")).map _).map _).map Char.toLower) = _
  rw [List.map_map, List.map_map]
  congr 1
  apply List.map_congr_left
  intro c _
  simp only [Function.comp_apply]
  by_cases h1 : c = '/' ∨ c = '\\'
  · rcases h1 with h | h <;> subst h <;> rfl
  · rw [if_neg h1]
    by_cases h2 : isAlnumCI c ∨ c = '-'
    · rw [if_pos h2]
      simp [specRefIdChar, h2]
    · rw [if_neg h2]
      simp [specRefIdChar, h2]

/-- C6 counterexample: for the referenced headerless file `a__b.md` the
implementation produces the id `a--b` (each non-alphanumeric character
becomes its own hyphen), while the claimed derivation — collapsing
non-alphanumeric runs to a single hyphen — would give `a-b`. -/
theorem referenced_id_not_run_collapsed :
    (generateEntryForReferencedFile "proj/.ai-docs/docs/a__b.md" "proj").id = "a--b" ∧
    specRunCollapsedId "a__b" = "a-b" ∧
    (generateEntryForReferencedFile "proj/.ai-docs/docs/a__b.md" "proj").id ≠
      specRunCollapsedId "a__b" := by decide

/-- C2 counterexample: a single discovered source file
`src/commands/foo.ts` — so no OTHER source file maps to the inferred
parent `commands` — still gets its parent module synthesized: the output
contains a `commands` node with parent `root` and empty path, and the
virtual node's parent is `commands`, not null as the claim requires. -/
theorem parent_synthesized_without_second_file :
    (analyzeCodeStructure "proj" ["src/commands/foo.ts"]).length = 1 ∧
    ((handleScan yamlTable inpSrc {} ⟨0⟩).tree.map
      (fun kv => (kv.1, kv.2.parent, kv.2.path))) =
      [("root", none, ".ai-docs/docs/ai-index.md"),
       ("commands", some "root", ""),
       ("command-foo", some "commands", "")] := by decide

/-- C2 (amended): whenever an unmatched virtual source-file node's
suggested parent module is absent from the tree, the parent module node
is ALWAYS synthesized (with parent `root` and empty path): the filter
counting source files that map to the parent includes the file itself, so
it is never empty and the branch attaching the virtual node at root level
is unreachable; the virtual node keeps its suggested parent. -/
theorem parent_module_always_synthesized (sfs : List SourceFileInfo)
    (opts : ScanOptions) (tree : TreeData) (sf : SourceFileInfo) (p : String)
    (hmem : sf ∈ sfs)
    (hauto : opts.autoLink = true)
    (hmatch : findMatchingModule tree sf = none)
    (hpar : sf.suggestedParentId = some p)
    (hp : p ≠ "")
    (hmiss : alookup tree p = none)
    (huid : ensureUnique tree sf.suggestedModuleId ≠ p) :
    (alookup (linkSourceFile sfs opts tree sf) p).map
        (fun e => (e.id, e.parent, e.path)) = some (p, some "root", "") ∧
    (alookup (linkSourceFile sfs opts tree sf)
        (ensureUnique tree sf.suggestedModuleId)).map TreeEntry.parent =
      some (some p) := by
  have hentry : (generateEntryForSourceFile sf).parent = some p := by
    simp [generateEntryForSourceFile, hpar, truthy, hp]
  have hfilter : sf ∈ sfs.filter (fun f => f.suggestedParentId == some p) :=
    List.mem_filter.mpr ⟨hmem, by simp [hpar]⟩
  have hlen : 0 < (sfs.filter (fun f => f.suggestedParentId == some p)).length :=
    List.length_pos.mpr (List.ne_nil_of_mem hfilter)
  have hid : (generateEntryForSourceFile sf).id = sf.suggestedModuleId := rfl
  simp only [linkSourceFile, hmatch, hauto, hid, hentry, not_true_eq_false,
    Bool.false_eq_true, if_false]
  rw [if_pos (And.intro hp hmiss), if_pos hlen]
  dsimp only
  constructor
  · rw [alookup_aset, if_neg huid, alookup_aset, if_pos rfl]
    rfl
  · rw [alookup_aset, if_pos rfl]
    rfl

theorem parent_module_always_synthesized_witness :
    (alookup (linkSourceFile [sfFoo] {} [] sfFoo) "commands").map
        (fun e => (e.id, e.parent, e.path)) = some ("commands", some "root", "") ∧
    (alookup (linkSourceFile [sfFoo] {} [] sfFoo)
        (ensureUnique [] sfFoo.suggestedModuleId)).map TreeEntry.parent =
      some (some "commands") :=
  parent_module_always_synthesized [sfFoo] {} [] sfFoo "commands"
    (List.mem_singleton.mpr rfl) rfl rfl rfl (by decide) rfl (by decide)

theorem alookup_amodify {α : Type} (t : List (String × α)) (k0 : String)
    (f : α → α) (k : String) :
    alookup (amodify t k0 f) k =
      if k = k0 then (alookup t k).map f else alookup t k := by
  induction t with
  | nil => by_cases h : k = k0 <;> simp [amodify, alookup, h]
  | cons hd tl ih =>
    simp only [amodify, List.map_cons] at ih ⊢
    by_cases h1 : hd.1 = k0
    · rw [if_pos h1]
      by_cases h2 : hd.1 = k
      · have hk : k = k0 := by rw [← h2, h1]
        simp [alookup, h2, hk]
      · simp [alookup, h2, ih]
    · rw [if_neg h1]
      by_cases h2 : hd.1 = k
      · have hk : ¬ k = k0 := fun he => h1 (h2.trans he)
        simp [alookup, h2, hk]
      · simp [alookup, h2, ih]

theorem suggest_foldl_aux (mods : TreeData)
    (groups : List (String × List SourceFileInfo)) :
    ∀ init, groups.foldl
      (fun sugg kv =>
        (if (alookup mods kv.1).isSome then sugg
         else sugg ++ [createParentSuggestion kv.1 kv.2]) ++
          kv.2.filterMap (fileSuggestion mods kv.1)) init
      = init ++ groups.flatMap (suggestionsOfGroup mods) := by
  induction groups with
  | nil => intro init; simp
  | cons hd tl ih =>
    intro init
    rw [List.foldl_cons, ih]
    by_cases h : (alookup mods hd.1).isSome <;>
      simp [suggestionsOfGroup, h, List.append_assoc]

theorem suggestModuleHierarchy_eq (sfs : List SourceFileInfo) (mods : TreeData) :
    suggestModuleHierarchy sfs mods =
      (groupByParent sfs).flatMap (suggestionsOfGroup mods) := by
  unfold suggestModuleHierarchy
  exact suggest_foldl_aux mods (groupByParent sfs) []

theorem findExistingForFile_mem (mods : TreeData) (f : SourceFileInfo)
    (m : TreeEntry) (h : findExistingForFile mods f = some m) :
    ∃ k, (k, m) ∈ mods := by
  unfold findExistingForFile at h
  cases hf : mods.find? (fun kv =>
      kv.2.path != "" &&
        jsIncludes f.relativePath (jsReplaceFirst kv.2.path ".ai-docs/docs/" "")) with
  | none => rw [hf] at h; cases h
  | some kv =>
    rw [hf] at h
    cases h
    exact ⟨kv.1, by simpa using List.mem_of_find?_eq_some hf⟩

/-- C3 (amended): every suggestion is high or medium confidence; a medium
suggestion is exactly a relocation of an existing node currently at root
level; any relocation of a root-level match is emitted with medium
confidence; a group whose inferred parent module does not yet exist emits
the high-confidence create-parent suggestion REGARDLESS of how many
source files the directory groups (one is enough); and the application
pass changes a node only for a high-confidence suggestion and only when
the node's parent is `root` or null. -/
theorem confidence_policy :
    (∀ (sfs : List SourceFileInfo) (mods : TreeData) (s : HierarchySuggestion),
       s ∈ suggestModuleHierarchy sfs mods →
       s.confidence ≠ .low ∧
       (s.confidence = .medium →
         ∃ m k, (k, m) ∈ mods ∧ m.id = s.moduleId ∧
           (m.parent = some "root" ∨ m.parent = none))) ∧
    (∀ (mods : TreeData) (pid : String) (f : SourceFileInfo) (m : TreeEntry),
       findExistingForFile mods f = some m →
       (m.parent = some "root" ∨ m.parent = none) →
       (fileSuggestion mods pid f).map HierarchySuggestion.confidence =
         some .medium) ∧
    (∀ (sfs : List SourceFileInfo) (mods : TreeData)
       (kv : String × List SourceFileInfo),
       kv ∈ groupByParent sfs → alookup mods kv.1 = none →
       createParentSuggestion kv.1 kv.2 ∈ suggestModuleHierarchy sfs mods ∧
       (createParentSuggestion kv.1 kv.2).confidence = .high) ∧
    (∀ (tree : TreeData) (s : HierarchySuggestion) (k : String),
       alookup (applySuggestion tree s) k ≠ alookup tree k →
       s.confidence = .high ∧ k = s.moduleId ∧
       ∃ e, alookup tree k = some e ∧
         (e.parent = some "root" ∨ e.parent = none) ∧
         alookup (applySuggestion tree s) k =
           some { e with parent := some s.suggestedParent,
                         suggestedParent := some s.suggestedParent }) := by
  refine ⟨?_, ?_, ?_, ?_⟩
  · intro sfs mods s hs
    rw [suggestModuleHierarchy_eq] at hs
    rcases List.mem_flatMap.mp hs with ⟨kv, _, hkv⟩
    rcases List.mem_append.mp hkv with hl | hr
    · by_cases h : (alookup mods kv.1).isSome
      · rw [if_pos h] at hl; cases hl
      · rw [if_neg h] at hl
        rcases List.mem_singleton.mp hl with rfl
        exact ⟨by simp [createParentSuggestion], by simp [createParentSuggestion]⟩
    · rcases List.mem_filterMap.mp hr with ⟨f, _, hf⟩
      unfold fileSuggestion at hf
      cases hx : findExistingForFile mods f with
      | none =>
        rw [hx] at hf
        cases hf
        exact ⟨by simp, by simp⟩
      | some m =>
        rw [hx] at hf
        dsimp only at hf
        by_cases hroot : m.parent = some "root" ∨ m.parent = none
        · rw [if_pos hroot] at hf
          cases hf
          refine ⟨by simp, fun _ => ?_⟩
          rcases findExistingForFile_mem mods f m hx with ⟨k, hk⟩
          exact ⟨m, k, hk, rfl, hroot⟩
        · rw [if_neg hroot] at hf
          cases hf
  · intro mods pid f m hfind hroot
    unfold fileSuggestion
    rw [hfind]
    dsimp only
    rw [if_pos hroot]
    rfl
  · intro sfs mods kv hkv hnone
    constructor
    · rw [suggestModuleHierarchy_eq]
      refine List.mem_flatMap.mpr ⟨kv, hkv, ?_⟩
      refine List.mem_append.mpr (Or.inl ?_)
      rw [if_neg (by simp [hnone])]
      exact List.mem_singleton.mpr rfl
    · rfl
  · intro tree s k hch
    unfold applySuggestion at hch
    by_cases hc : s.confidence = .high
    · rw [if_pos hc] at hch
      cases he : alookup tree s.moduleId with
      | none => rw [he] at hch; exact absurd rfl hch
      | some e =>
        rw [he] at hch
        dsimp only at hch
        by_cases hroot : e.parent = some "root" ∨ e.parent = none
        · rw [if_pos hroot] at hch
          rw [alookup_amodify] at hch
          by_cases hk : k = s.moduleId
          · subst hk
            refine ⟨hc, rfl, e, he, hroot, ?_⟩
            unfold applySuggestion
            rw [if_pos hc, he]
            dsimp only
            rw [if_pos hroot, alookup_amodify, if_pos rfl, he]
            rfl
          · rw [if_neg hk] at hch
            exact absurd rfl hch
        · rw [if_neg hroot] at hch
          exact absurd rfl hch
    · rw [if_neg hc] at hch
      exact absurd rfl hch

theorem confidence_policy_witness :
    ((fileSuggestion
        [("cmdfoo", { id := "cmdfoo", title := "Cmd Foo", parent := some "root",
                      order := 0, path := "foo.ts" })] "commands" sfFoo).map
      HierarchySuggestion.confidence = some .medium) ∧
    (createParentSuggestion "commands" [sfFoo] ∈
        suggestModuleHierarchy [sfFoo] [] ∧
      (createParentSuggestion "commands" [sfFoo]).confidence = .high) :=
  ⟨confidence_policy.2.1
      [("cmdfoo", { id := "cmdfoo", title := "Cmd Foo", parent := some "root",
                    order := 0, path := "foo.ts" })] "commands" sfFoo
      { id := "cmdfoo", title := "Cmd Foo", parent := some "root",
        order := 0, path := "foo.ts" }
      (by decide) (Or.inl rfl),
   confidence_policy.2.2.1 [sfFoo] [] ("commands", [sfFoo])
      (by decide) rfl⟩

/-- C3 counterexample: a single discovered source file yields TWO
high-confidence suggestions — the create-parent suggestion for `commands`
(a directory grouping only ONE source file) and the sub-module suggestion
— contradicting the claim that high confidence is assigned only when a
directory groups two or more source files under a not-yet-existing
module. -/
theorem high_confidence_with_single_file :
    (analyzeCodeStructure "proj" ["src/commands/foo.ts"]).length = 1 ∧
    ((suggestModuleHierarchy
        (analyzeCodeStructure "proj" ["src/commands/foo.ts"]) []).map
      (fun s => (s.moduleId, s.suggestedParent, s.confidence))) =
      [("commands", "root", .high), ("command-foo", "commands", .high)] := by
  decide

/-- C4: for a node map in which node A's parent is B and node B's parent
is A, the validator reports exactly one cycle, containing both ids (and no
orphans); validation is a pure function returning its defect lists, and on
the concrete two-document cycle input assembly still completes: the run is
not fatal, the tree with both nodes and their (unbroken) parents is
written, and the cycle is surfaced as a warning. -/
theorem cycle_detected_reported_nonfatal :
    (∀ (a b : String) (ea eb : TreeEntry), a ≠ b →
       ea.parent = some b → eb.parent = some a →
       validateHierarchy [(a, ea), (b, eb)] =
         ([a ++ " -> " ++ (b ++ " -> " ++ a)], [])) ∧
    (handleScan yamlTable inpCyc {} ⟨0⟩).fatal = false ∧
    ((handleScan yamlTable inpCyc {} ⟨0⟩).writes.map
      (fun w => (w.1, w.2.map (fun kv => (kv.1, kv.2.entry.parent))))) =
      [(treePathOf "proj", [("a", some "b"), ("b", some "a")])] ∧
    "Circular parent references detected: a -> b -> a" ∈
      (handleScan yamlTable inpCyc {} ⟨0⟩).warnings := by
  refine ⟨?_, by decide, by decide, by decide⟩
  intro a b ea eb hab hea heb
  have hba : b ≠ a := Ne.symm hab
  simp [validateHierarchy, checkCircular, alookup, idxOfS, joinSep, hea, heb,
    hab, hba, List.erase_cons]

theorem cycle_detected_reported_nonfatal_witness :
    validateHierarchy
        [("a", { id := "a", title := "A", parent := some "b", order := 0,
                 path := "pa" }),
         ("b", { id := "b", title := "B", parent := some "a", order := 0,
                 path := "pb" })] =
      (["a" ++ " -> " ++ ("b" ++ " -> " ++ "a")], []) :=
  cycle_detected_reported_nonfatal.1 "a" "b"
    { id := "a", title := "A", parent := some "b", order := 0, path := "pa" }
    { id := "b", title := "B", parent := some "a", order := 0, path := "pb" }
    (by decide) rfl rfl

/-! ## The validator walk reaches every parent: invariant lemmas -/

theorem length_filter_mono {α : Type} (p q : α → Bool)
    (h : ∀ a, p a = true → q a = true) :
    ∀ l : List α, (l.filter p).length ≤ (l.filter q).length := by
  intro l
  induction l with
  | nil => simp
  | cons hd tl ih =>
    by_cases hp : p hd = true
    · rw [List.filter_cons_of_pos hp, List.filter_cons_of_pos (h hd hp)]
      simpa using ih
    · rw [List.filter_cons_of_neg (by simpa using hp)]
      by_cases hq : q hd = true
      · rw [List.filter_cons_of_pos hq]
        exact ih.trans (Nat.le_succ _)
      · rw [List.filter_cons_of_neg (by simpa using hq)]
        exact ih

theorem filter_sub_visiting (keys : List String) (V : List String) (id : String)
    (hid : id ∈ keys) (hnv : id ∉ V) :
    (keys.filter (fun k => ¬ k ∈ V ++ [id])).length <
      (keys.filter (fun k => ¬ k ∈ V)).length := by
  have hmono : ∀ l : List String,
      (l.filter (fun k => ¬ k ∈ V ++ [id])).length ≤
        (l.filter (fun k => ¬ k ∈ V)).length := by
    apply length_filter_mono
    intro a ha
    simp only [decide_eq_true_eq] at ha ⊢
    exact fun hm => ha (List.mem_append_left _ hm)
  induction keys with
  | nil => cases hid
  | cons hd tl ih =>
    simp only [List.filter_cons]
    rcases List.mem_cons.mp hid with rfl | hm
    · have hnew : ¬ (decide (¬ id ∈ V ++ [id]) = true) := by simp
      have hold : decide (¬ id ∈ V) = true := by simpa using hnv
      rw [if_neg hnew, if_pos hold]
      exact Nat.lt_succ_of_le (hmono tl)
    · by_cases hold : decide (¬ hd ∈ V) = true
      · rw [if_pos hold]
        by_cases hnew : decide (¬ hd ∈ V ++ [id]) = true
        · rw [if_pos hnew]
          simpa using ih hm
        · rw [if_neg hnew]
          exact Nat.lt_succ_of_lt (by simpa using ih hm)
      · have hnew : ¬ (decide (¬ hd ∈ V ++ [id]) = true) := by
          simp only [decide_eq_true_eq] at hold ⊢
          intro hc
          exact hc (List.mem_append_left _ (not_not.mp hold))
        rw [if_neg hnew, if_neg hold]
        exact ih hm

theorem mem_keys_of_alookup_some {α : Type} (t : List (String × α)) (k : String)
    (v : α) (h : alookup t k = some v) : k ∈ t.map Prod.fst := by
  by_contra hk
  rw [(alookup_none_iff t k).mpr hk] at h
  cases h

theorem checkCircular_spec (tree : TreeData) :
    ∀ (fuel : Nat) (id : String) (path : List String) (s : VState),
    ((tree.map Prod.fst).filter (fun k => ¬ k ∈ s.visiting)).length < fuel →
    VInv tree s →
    (checkCircular tree fuel id path s).visiting = s.visiting ∧
    (∀ x ∈ s.visited, x ∈ (checkCircular tree fuel id path s).visited) ∧
    (∀ x ∈ s.orphaned, x ∈ (checkCircular tree fuel id path s).orphaned) ∧
    (id ∈ (checkCircular tree fuel id path s).visited ∨ id ∈ s.visiting) ∧
    VInv tree (checkCircular tree fuel id path s) := by
  intro fuel
  induction fuel with
  | zero =>
    intro id path s hf _
    exact absurd hf (Nat.not_lt_zero _)
  | succ fuel ih =>
    intro id path s hf hinv
    simp only [checkCircular]
    by_cases h1 : id ∈ s.visiting
    · rw [if_pos h1]
      by_cases h2 : id ∈ path
      · rw [if_pos h2]
        exact ⟨rfl, fun x hx => hx, fun x hx => hx, Or.inr h1, hinv⟩
      · rw [if_neg h2]
        exact ⟨rfl, fun x hx => hx, fun x hx => hx, Or.inr h1, hinv⟩
    · rw [if_neg h1]
      by_cases h2 : id ∈ s.visited
      · rw [if_pos h2]
        exact ⟨rfl, fun x hx => hx, fun x hx => hx, Or.inl h2, hinv⟩
      · rw [if_neg h2]
        have herase : (s.visiting ++ [id]).erase id = s.visiting := by
          rw [List.erase_append_right _ h1, List.erase_cons_head, List.append_nil]
        cases hlook : alookup tree id with
        | none =>
          dsimp only
          refine ⟨herase, fun x hx => List.mem_append_left _ hx,
            fun x hx => List.mem_append_left _ hx,
            Or.inl (List.mem_append_right _ (List.mem_singleton.mpr rfl)), ?_, ?_⟩
          · intro m hm hnone
            rcases List.mem_append.mp hm with hm | hm
            · exact List.mem_append_left _ (hinv.1 m hm hnone)
            · rcases List.mem_singleton.mp hm with rfl
              exact List.mem_append_right _ (List.mem_singleton.mpr rfl)
          · intro m hm e p hl hpp
            rcases List.mem_append.mp hm with hm | hm
            · rcases hinv.2 m hm e p hl hpp with h | h
              · exact Or.inl (List.mem_append_left _ h)
              · rw [herase]
                exact Or.inr h
            · rcases List.mem_singleton.mp hm with rfl
              rw [hlook] at hl
              cases hl
        | some entry =>
          dsimp only
          cases hpar : entry.parent with
          | none =>
            dsimp only
            refine ⟨herase, fun x hx => List.mem_append_left _ hx,
              fun x hx => hx,
              Or.inl (List.mem_append_right _ (List.mem_singleton.mpr rfl)), ?_, ?_⟩
            · intro m hm hnone
              rcases List.mem_append.mp hm with hm | hm
              · exact hinv.1 m hm hnone
              · rcases List.mem_singleton.mp hm with rfl
                rw [hlook] at hnone
                cases hnone
            · intro m hm e p hl hpp
              rcases List.mem_append.mp hm with hm | hm
              · rcases hinv.2 m hm e p hl hpp with h | h
                · exact Or.inl (List.mem_append_left _ h)
                · rw [herase]
                  exact Or.inr h
              · rcases List.mem_singleton.mp hm with rfl
                rw [hlook] at hl
                cases hl
                rw [hpar] at hpp
                cases hpp
          | some p =>
            dsimp only
            have hidkeys : id ∈ tree.map Prod.fst :=
              mem_keys_of_alookup_some tree id entry hlook
            have hdec : ((tree.map Prod.fst).filter
                  (fun k => ¬ k ∈ s.visiting ++ [id])).length <
                ((tree.map Prod.fst).filter (fun k => ¬ k ∈ s.visiting)).length :=
              filter_sub_visiting _ _ _ hidkeys h1
            have hf2 : ((tree.map Prod.fst).filter
                (fun k => ¬ k ∈ s.visiting ++ [id])).length < fuel :=
              Nat.lt_of_lt_of_le hdec (Nat.lt_succ_iff.mp hf)
            have hinv1 : VInv tree { s with visiting := s.visiting ++ [id] } := by
              refine ⟨hinv.1, ?_⟩
              intro m hm e p' hl hpp
              rcases hinv.2 m hm e p' hl hpp with h | h
              · exact Or.inl h
              · exact Or.inr (List.mem_append_left _ h)
            obtain ⟨c1, c2, c3, c4, c5⟩ := ih p (path ++ [id])
              { s with visiting := s.visiting ++ [id] } hf2 hinv1
            have herase2 :
                (checkCircular tree fuel p (path ++ [id])
                  { s with visiting := s.visiting ++ [id] }).visiting.erase id =
                  s.visiting := by
              rw [c1]
              exact herase
            refine ⟨herase2, ?_, ?_, ?_, ?_, ?_⟩
            · intro x hx
              exact List.mem_append_left _ (c2 x hx)
            · intro x hx
              exact c3 x hx
            · exact Or.inl (List.mem_append_right _ (List.mem_singleton.mpr rfl))
            · intro m hm hnone
              rcases List.mem_append.mp hm with hm | hm
              · exact c5.1 m hm hnone
              · rcases List.mem_singleton.mp hm with rfl
                rw [hlook] at hnone
                cases hnone
            · intro m hm e p' hl hpp
              rcases List.mem_append.mp hm with hm | hm
              · rcases c5.2 m hm e p' hl hpp with h | h
                · exact Or.inl (List.mem_append_left _ h)
                · rw [c1] at h
                  rcases List.mem_append.mp h with h | h
                  · rw [herase2]
                    exact Or.inr h
                  · rcases List.mem_singleton.mp h with rfl
                    exact Or.inl (List.mem_append_right _ (List.mem_singleton.mpr rfl))
              · rcases List.mem_singleton.mp hm with rfl
                rw [hlook] at hl
                cases hl
                rw [hpar] at hpp
                cases hpp
                rcases c4 with h | h
                · exact Or.inl (List.mem_append_left _ h)
                · rcases List.mem_append.mp h with h | h
                  · rw [herase2]
                    exact Or.inr h
                  · rcases List.mem_singleton.mp h with rfl
                    exact Or.inl (List.mem_append_right _ (List.mem_singleton.mpr rfl))

theorem validate_loop_spec (tree : TreeData) :
    ∀ (keys : List String) (s : VState), s.visiting = [] → VInv tree s →
    (keys.foldl
        (fun s id => if id ∈ s.visited then s
          else checkCircular tree (tree.length + 1) id [] s) s).visiting = [] ∧
    VInv tree (keys.foldl
        (fun s id => if id ∈ s.visited then s
          else checkCircular tree (tree.length + 1) id [] s) s) ∧
    (∀ x ∈ s.visited, x ∈ (keys.foldl
        (fun s id => if id ∈ s.visited then s
          else checkCircular tree (tree.length + 1) id [] s) s).visited) ∧
    (∀ x ∈ s.orphaned, x ∈ (keys.foldl
        (fun s id => if id ∈ s.visited then s
          else checkCircular tree (tree.length + 1) id [] s) s).orphaned) ∧
    (∀ k ∈ keys, k ∈ (keys.foldl
        (fun s id => if id ∈ s.visited then s
          else checkCircular tree (tree.length + 1) id [] s) s).visited) := by
  intro keys
  induction keys with
  | nil =>
    intro s hvis hinv
    exact ⟨hvis, hinv, fun x hx => hx, fun x hx => hx, fun k hk => absurd hk
      (List.not_mem_nil k)⟩
  | cons hd tl ih =>
    intro s hvis hinv
    rw [List.foldl_cons]
    by_cases h : hd ∈ s.visited
    · rw [if_pos h]
      obtain ⟨a, b, c, d, e⟩ := ih s hvis hinv
      refine ⟨a, b, c, d, ?_⟩
      intro k hk
      rcases List.mem_cons.mp hk with rfl | hk
      · exact c k h
      · exact e k hk
    · rw [if_neg h]
      have hflen : ((tree.map Prod.fst).filter
          (fun k => ¬ k ∈ s.visiting)).length < tree.length + 1 := by
        have h1 : ((tree.map Prod.fst).filter
            (fun k => ¬ k ∈ s.visiting)).length ≤ (tree.map Prod.fst).length :=
          List.length_filter_le _ _
        have h2 : (tree.map Prod.fst).length = tree.length := List.length_map _ _
        omega
      obtain ⟨c1, c2, c3, c4, c5⟩ :=
        checkCircular_spec tree (tree.length + 1) hd [] s hflen hinv
      have hvis1 : (checkCircular tree (tree.length + 1) hd [] s).visiting = [] := by
        rw [c1, hvis]
      obtain ⟨a, b, c, d, e⟩ := ih (checkCircular tree (tree.length + 1) hd [] s)
        hvis1 c5
      refine ⟨a, b, fun x hx => c x (c2 x hx), fun x hx => d x (c3 x hx), ?_⟩
      intro k hk
      rcases List.mem_cons.mp hk with rfl | hk
      · rcases c4 with h4 | h4
        · exact c k h4
        · rw [hvis] at h4
          cases h4
      · exact e k hk

/-- C10: for every node whose `parent` names an id absent from the node
map, the validator's orphan list contains, besides that node's own id
(pushed by the final sweep), the missing parent id itself (pushed during
the parent-chain walk when the walk reaches a key with no entry) — so the
orphan report can contain ids that are not nodes of the assembled tree at
all. -/
theorem orphan_report_includes_missing_parent (tree : TreeData)
    (hnd : (tree.map Prod.fst).Nodup) (n : String) (e : TreeEntry) (p : String)
    (hmem : (n, e) ∈ tree) (hp : e.parent = some p)
    (hmiss : alookup tree p = none) :
    n ∈ (validateHierarchy tree).2 ∧ p ∈ (validateHierarchy tree).2 ∧
    p ∉ tree.map Prod.fst := by
  have hpnotkey : p ∉ tree.map Prod.fst := (alookup_none_iff tree p).mp hmiss
  have hnkey : n ∈ tree.map Prod.fst := List.mem_map_of_mem Prod.fst hmem
  have hlookn : alookup tree n = some e := alookup_of_mem_nodup tree n e hmem hnd
  obtain ⟨a, b, _, _, e5⟩ := validate_loop_spec tree (tree.map Prod.fst)
    ⟨[], [], [], []⟩ rfl ⟨fun m hm => absurd hm (List.not_mem_nil m),
      fun m hm => absurd hm (List.not_mem_nil m)⟩
  have hnvisited := e5 n hnkey
  have hpreached : p ∈ ((tree.map Prod.fst).foldl
      (fun s id => if id ∈ s.visited then s
        else checkCircular tree (tree.length + 1) id [] s)
      ⟨[], [], [], []⟩).visited := by
    rcases b.2 n hnvisited e p hlookn hp with h | h
    · exact h
    · rw [a] at h
      cases h
  have hporph := b.1 p hpreached hmiss
  unfold validateHierarchy
  refine ⟨?_, ?_, hpnotkey⟩
  · refine List.mem_append_right _ ?_
    refine List.mem_filterMap.mpr ⟨(n, e), hmem, ?_⟩
    simp [hp, hmiss]
  · exact List.mem_append_left _ hporph

theorem orphan_report_includes_missing_parent_witness :
    "c" ∈ (validateHierarchy
        [("c", { id := "c", title := "C", parent := some "ghost", order := 0,
                 path := "pc" })]).2 ∧
    "ghost" ∈ (validateHierarchy
        [("c", { id := "c", title := "C", parent := some "ghost", order := 0,
                 path := "pc" })]).2 ∧
    "ghost" ∉ (["c"] : List String) :=
  orphan_report_includes_missing_parent
    [("c", { id := "c", title := "C", parent := some "ghost", order := 0,
             path := "pc" })]
    (by decide) "c"
    { id := "c", title := "C", parent := some "ghost", order := 0, path := "pc" }
    "ghost" (List.mem_singleton.mpr rfl) rfl rfl
